import Mathlib

/-!
A shallow embedding of the chess rule engine in `src/chess.py`.

Conventions of the embedding:
* Python `Square = Tuple[int, int]` becomes `Int × Int` (Python integers are
  unbounded, and candidate squares go out of `[0,7]` before the bounds check).
* Python dictionaries (`Board = Dict[Square, Piece]`) become association lists
  in insertion order; `boardGet` is `dict.get` (first match), `boardErase` is
  `dict.pop`, `boardSet` is `dict[k] = v` (update in place, else append).
  On lists without duplicate keys — the only ones a Python dict can denote —
  these agree exactly with the dictionary operations.
* Python code that can raise (`board.pop(start)` with a missing key,
  `state.castling_rights[piece.color]` with an unknown color) returns
  `Option`: `none` models the raised `KeyError`.
* Colors and piece kinds stay `String`, as in the source ("w"/"b",
  "P"/"N"/"B"/"R"/"Q"/"K"); `promotion_choice or "Q"` is modelled including
  Python's falsiness of the empty string.
* The `while True` ray walk of `sliding_moves` is given explicit fuel 16.
  The loop stops as soon as the next square is out of bounds, so for the
  unit directions the source uses it visits at most 8 squares; fuel 16 is
  never exhausted and the function equals the source loop.
-/

abbrev Square : Type := Int × Int

structure Piece where
  color : String
  kind : String
deriving DecidableEq, Repr

abbrev Board : Type := List (Square × Piece)

def boardGet : Board → Square → Option Piece
  | [], _ => none
  | (sq, p) :: rest, q => if sq = q then some p else boardGet rest q

def boardErase (b : Board) (q : Square) : Board :=
  b.filter (fun e => e.1 ≠ q)

def boardSet : Board → Square → Piece → Board
  | [], q, p => [(q, p)]
  | (sq, r) :: rest, q, p =>
    if sq = q then (q, p) :: rest else (sq, r) :: boardSet rest q p

structure Rights where
  K : Bool
  Q : Bool
deriving DecidableEq, Repr

structure CastlingRights where
  w : Rights
  b : Rights
deriving DecidableEq, Repr

def CastlingRights.lookup (cr : CastlingRights) (c : String) : Option Rights :=
  if c = "w" then some cr.w else if c = "b" then some cr.b else none

structure GameState where
  board : Board
  current : String
  castling_rights : CastlingRights
  en_passant : Option Square
deriving DecidableEq, Repr

/-- The starting board, entries listed in the source's dict insertion order. -/
def initial_board : Board :=
  [((6, 0), ⟨"w", "P"⟩), ((1, 0), ⟨"b", "P"⟩),
   ((6, 1), ⟨"w", "P"⟩), ((1, 1), ⟨"b", "P"⟩),
   ((6, 2), ⟨"w", "P"⟩), ((1, 2), ⟨"b", "P"⟩),
   ((6, 3), ⟨"w", "P"⟩), ((1, 3), ⟨"b", "P"⟩),
   ((6, 4), ⟨"w", "P"⟩), ((1, 4), ⟨"b", "P"⟩),
   ((6, 5), ⟨"w", "P"⟩), ((1, 5), ⟨"b", "P"⟩),
   ((6, 6), ⟨"w", "P"⟩), ((1, 6), ⟨"b", "P"⟩),
   ((6, 7), ⟨"w", "P"⟩), ((1, 7), ⟨"b", "P"⟩),
   ((7, 0), ⟨"w", "R"⟩), ((7, 7), ⟨"w", "R"⟩),
   ((0, 0), ⟨"b", "R"⟩), ((0, 7), ⟨"b", "R"⟩),
   ((7, 1), ⟨"w", "N"⟩), ((7, 6), ⟨"w", "N"⟩),
   ((0, 1), ⟨"b", "N"⟩), ((0, 6), ⟨"b", "N"⟩),
   ((7, 2), ⟨"w", "B"⟩), ((7, 5), ⟨"w", "B"⟩),
   ((0, 2), ⟨"b", "B"⟩), ((0, 5), ⟨"b", "B"⟩),
   ((7, 3), ⟨"w", "Q"⟩), ((0, 3), ⟨"b", "Q"⟩),
   ((7, 4), ⟨"w", "K"⟩), ((0, 4), ⟨"b", "K"⟩)]

def initial_state : GameState :=
  ⟨initial_board, "w", ⟨⟨true, true⟩, ⟨true, true⟩⟩, none⟩

def in_bounds (square : Square) : Bool :=
  decide (0 ≤ square.1 ∧ square.1 < 8 ∧ 0 ≤ square.2 ∧ square.2 < 8)

def is_opponent (piece other : Piece) : Bool :=
  decide (piece.color ≠ other.color)

/-- One direction of the `while True` loop in `sliding_moves`; `fuel` bounds
the iteration count (see the header comment: 16 is never exhausted). -/
def rayWalk (board : Board) (piece : Piece) (dr dc : Int) :
    Nat → Int → Int → List Square
  | 0, _, _ => []
  | fuel + 1, row, col =>
    let row2 := row + dr
    let col2 := col + dc
    if in_bounds (row2, col2) then
      match boardGet board (row2, col2) with
      | some occupant =>
        if is_opponent piece occupant then [(row2, col2)] else []
      | none => (row2, col2) :: rayWalk board piece dr dc fuel row2 col2
    else []

def sliding_moves (board : Board) (start : Square) (deltas : List Square)
    (piece : Piece) : List Square :=
  deltas.flatMap (fun d => rayWalk board piece d.1 d.2 16 start.1 start.2)

/-- The test `occupant is None or is_opponent(piece, occupant)` shared by the
knight and king generators. -/
def emptyOrOpponent (board : Board) (piece : Piece) (square : Square) : Bool :=
  match boardGet board square with
  | none => true
  | some occupant => is_opponent piece occupant

def pawn_moves (state : GameState) (start : Square) (piece : Piece) :
    List Square :=
  let board := state.board
  let direction : Int := if piece.color = "w" then -1 else 1
  let row := start.1
  let col := start.2
  let one_step : Square := (row + direction, col)
  let forward : List Square :=
    if in_bounds one_step ∧ boardGet board one_step = none then
      let start_row : Int := if piece.color = "w" then 6 else 1
      let two_step : Square := (row + 2 * direction, col)
      if row = start_row ∧ boardGet board two_step = none then
        [one_step, two_step]
      else [one_step]
    else []
  let captures : List Square :=
    (([-1, 1] : List Int).map (fun dc => (row + direction, col + dc))).filter
      (fun cap =>
        in_bounds cap &&
          match boardGet board cap with
          | some occupant => is_opponent piece occupant
          | none => false)
  let enPassantMoves : List Square :=
    match state.en_passant with
    | some ep =>
      if ep.1 = row + direction ∧ (ep.2 - col).natAbs = 1 then [ep] else []
    | none => []
  forward ++ captures ++ enPassantMoves

def knightDeltas : List Square :=
  [(-2, -1), (-2, 1), (-1, -2), (-1, 2), (1, -2), (1, 2), (2, -1), (2, 1)]

def knight_moves (board : Board) (start : Square) (piece : Piece) :
    List Square :=
  (knightDeltas.map (fun d => (start.1 + d.1, start.2 + d.2))).filter
    (fun square => in_bounds square && emptyOrOpponent board piece square)

def kingDeltas : List Square :=
  [(-1, -1), (-1, 0), (-1, 1), (0, -1), (0, 1), (1, -1), (1, 0), (1, 1)]

def king_moves (board : Board) (start : Square) (piece : Piece) :
    List Square :=
  (kingDeltas.map (fun d => (start.1 + d.1, start.2 + d.2))).filter
    (fun square => in_bounds square && emptyOrOpponent board piece square)

def find_king : Board → String → Option Square
  | [], _ => none
  | (square, piece) :: rest, color =>
    if piece.color = color ∧ piece.kind = "K" then some square
    else find_king rest color

def pawnAttackSquares (color : String) (square : Square) : List Square :=
  let direction : Int := if color = "w" then -1 else 1
  (([-1, 1] : List Int).map
      (fun dc => (square.1 + direction, square.2 + dc))).filter
    (fun t => in_bounds t)

def bishopDeltas : List Square := [(-1, -1), (-1, 1), (1, -1), (1, 1)]

def rookDeltas : List Square := [(-1, 0), (1, 0), (0, -1), (0, 1)]

def queenDeltas : List Square :=
  [(-1, -1), (-1, 1), (1, -1), (1, 1), (-1, 0), (1, 0), (0, -1), (0, 1)]

/-- The per-piece dispatch inside the source's `attacks` loop. -/
def pieceAttacks (board : Board) (color : String) (square : Square)
    (piece : Piece) : List Square :=
  if piece.kind = "P" then pawnAttackSquares color square
  else if piece.kind = "N" then knight_moves board square piece
  else if piece.kind = "B" then sliding_moves board square bishopDeltas piece
  else if piece.kind = "R" then sliding_moves board square rookDeltas piece
  else if piece.kind = "Q" then sliding_moves board square queenDeltas piece
  else if piece.kind = "K" then king_moves board square piece
  else []

def attacksAux (board : Board) (color : String) :
    List (Square × Piece) → List Square
  | [] => []
  | (square, piece) :: rest =>
    if piece.color = color then
      pieceAttacks board color square piece ++ attacksAux board color rest
    else attacksAux board color rest

def attacks (board : Board) (color : String) : List Square :=
  attacksAux board color board

def is_in_check (state : GameState) (color : String) : Bool :=
  match find_king state.board color with
  | none => false
  | some king_square =>
    let opponent := if color = "w" then "b" else "w"
    decide (king_square ∈ attacks state.board opponent)

def piece_moves (state : GameState) (start : Square) (piece : Piece) :
    List Square :=
  if piece.kind = "P" then pawn_moves state start piece
  else if piece.kind = "N" then knight_moves state.board start piece
  else if piece.kind = "B" then
    sliding_moves state.board start bishopDeltas piece
  else if piece.kind = "R" then
    sliding_moves state.board start rookDeltas piece
  else if piece.kind = "Q" then
    sliding_moves state.board start queenDeltas piece
  else if piece.kind = "K" then king_moves state.board start piece
  else []

/-- `castling_moves`; `none` models the `KeyError` raised by
`state.castling_rights[piece.color]` on a color other than "w"/"b". -/
def castling_moves (state : GameState) (start : Square) (piece : Piece) :
    Option (List Square) :=
  if piece.kind ≠ "K" then some []
  else if is_in_check state piece.color then some []
  else
    let row : Int := if piece.color = "w" then 7 else 0
    if start ≠ (row, 4) then some []
    else
      let opponent := if piece.color = "w" then "b" else "w"
      let attacked := attacks state.board opponent
      match state.castling_rights.lookup piece.color with
      | none => none
      | some rights =>
        let kingside : List Square :=
          if rights.K ∧ boardGet state.board (row, 5) = none ∧
              boardGet state.board (row, 6) = none ∧
              (row, 5) ∉ attacked ∧ (row, 6) ∉ attacked then
            [(row, 6)]
          else []
        let queenside : List Square :=
          if rights.Q ∧ boardGet state.board (row, 3) = none ∧
              boardGet state.board (row, 2) = none ∧
              boardGet state.board (row, 1) = none ∧
              (row, 3) ∉ attacked ∧ (row, 2) ∉ attacked then
            [(row, 2)]
          else []
        some (kingside ++ queenside)

/-- The rook-move block of the castling-rights update (note: the source keys
on the origin square only, not on the rook's color). -/
def clearRightsRookMove (start : Square) (cr : CastlingRights) :
    CastlingRights :=
  let c1 := if start = ((7 : Int), (0 : Int)) then
      CastlingRights.mk ⟨cr.w.K, false⟩ cr.b else cr
  let c2 := if start = ((7 : Int), (7 : Int)) then
      CastlingRights.mk ⟨false, c1.w.Q⟩ c1.b else c1
  let c3 := if start = ((0 : Int), (0 : Int)) then
      CastlingRights.mk c2.w ⟨c2.b.K, false⟩ else c2
  if start = ((0 : Int), (7 : Int)) then
      CastlingRights.mk c3.w ⟨false, c3.b.Q⟩ else c3

/-- The captured-rook block of the castling-rights update. -/
def clearRightsCapture (finish : Square) (cr : CastlingRights) :
    CastlingRights :=
  let c1 := if finish = ((7 : Int), (0 : Int)) then
      CastlingRights.mk ⟨cr.w.K, false⟩ cr.b else cr
  let c2 := if finish = ((7 : Int), (7 : Int)) then
      CastlingRights.mk ⟨false, c1.w.Q⟩ c1.b else c1
  let c3 := if finish = ((0 : Int), (0 : Int)) then
      CastlingRights.mk c2.w ⟨c2.b.K, false⟩ else c2
  if finish = ((0 : Int), (7 : Int)) then
      CastlingRights.mk c3.w ⟨false, c3.b.Q⟩ else c3

/-- The en-passant-capture block of `apply_move`: removes the opponent pawn
one rank behind the destination when the conditions of line 289 hold.
`board0` is the board with the origin already popped. -/
def epCaptureBoard (state : GameState) (piece : Piece) (board0 : Board)
    (finish : Square) : Board :=
  match state.en_passant with
  | some ep =>
    if piece.kind = "P" ∧ finish = ep ∧
        boardGet state.board finish = none then
      let direction : Int := if piece.color = "w" then -1 else 1
      boardErase board0 (finish.1 + (-direction), finish.2)
    else board0
  | none => board0

/-- The castling block of `apply_move`: relocates the rook on a two-column
king move; `none` models the `KeyError` of `board.pop(rook_start)` when
that square is empty. -/
def castleBoard (piece : Piece) (start finish : Square) (board1 : Board) :
    Option Board :=
  if piece.kind = "K" ∧ (finish.2 - start.2).natAbs = 2 then
    let row := start.1
    let rook_start : Square := if finish.2 = 6 then (row, 7) else (row, 0)
    let rook_end : Square := if finish.2 = 6 then (row, 5) else (row, 3)
    match boardGet board1 rook_start with
    | none => none
    | some rook => some (boardSet (boardErase board1 rook_start) rook_end rook)
  else some board1

/-- The promotion block of `apply_move`; `promotion_choice or "Q"` also maps
the (falsy) empty string to "Q". -/
def promoteBoard (piece : Piece) (finish : Square)
    (promotion_choice : Option String) (board3 : Board) : Board :=
  if piece.kind = "P" ∧
      ((piece.color = "w" ∧ finish.1 = 0) ∨
        (piece.color = "b" ∧ finish.1 = 7)) then
    let promoted :=
      match promotion_choice with
      | some s => if s = "" then "Q" else s
      | none => "Q"
    boardSet board3 finish ⟨piece.color, promoted⟩
  else board3

/-- The king clause of the castling-rights update; `none` models the
`KeyError` of `new_castling[piece.color]` for an unknown color. -/
def kingRights (piece : Piece) (cr : CastlingRights) :
    Option CastlingRights :=
  if piece.kind = "K" then
    if piece.color = "w" then some (CastlingRights.mk ⟨false, false⟩ cr.b)
    else if piece.color = "b" then some (CastlingRights.mk cr.w ⟨false, false⟩)
    else none
  else some cr

/-- The en-passant-target update of `apply_move` (lines 340-343): the passed
square keeps the origin's column. -/
def newEnPassantTarget (piece : Piece) (start finish : Square) :
    Option Square :=
  if piece.kind = "P" ∧ (finish.1 - start.1).natAbs = 2 then
    some (Int.fdiv (start.1 + finish.1) 2, start.2)
  else none

/-- The rook clause of the castling-rights update. -/
def rookRights (piece : Piece) (start : Square) (cr : CastlingRights) :
    CastlingRights :=
  if piece.kind = "R" then clearRightsRookMove start cr else cr

/-- The captured-rook clause of the castling-rights update. -/
def capturedRights (captured : Option Piece) (finish : Square)
    (cr : CastlingRights) : CastlingRights :=
  match captured with
  | some cap => if cap.kind = "R" then clearRightsCapture finish cr else cr
  | none => cr

/-- `apply_move`; `none` models a raised `KeyError`: `board.pop(start)` with
an empty origin, `board.pop(rook_start)` with a two-column king move whose
rook square is empty, and `new_castling[piece.color]` for a king of a color
other than "w"/"b". -/
def apply_move (state : GameState) (start finish : Square)
    (promotion_choice : Option String) : Option GameState :=
  match boardGet state.board start with
  | none => none
  | some piece =>
    let board0 := boardErase state.board start
    let captured := boardGet board0 finish
    let board1 := epCaptureBoard state piece board0 finish
    match castleBoard piece start finish board1 with
    | none => none
    | some board2 =>
      let board3 := boardSet board2 finish piece
      let board4 := promoteBoard piece finish promotion_choice board3
      match kingRights piece state.castling_rights with
      | none => none
      | some cr1 =>
        some ⟨board4,
              if state.current = "w" then "b" else "w",
              capturedRights captured finish (rookRights piece start cr1),
              newEnPassantTarget piece start finish⟩

/-- The inner loop of `legal_moves` over one piece's candidate targets. -/
def candidateLoop (state : GameState) (color : String) (square : Square) :
    List Square → Option (List (Square × Square))
  | [] => some []
  | target :: rest =>
    match apply_move state square target none with
    | none => none
    | some candidate =>
      match candidateLoop state color square rest with
      | none => none
      | some pairs =>
        some (if is_in_check candidate color then pairs
              else (square, target) :: pairs)

/-- The outer loop of `legal_moves` over the board's entries. -/
def movesLoop (state : GameState) (color : String) :
    List (Square × Piece) → Option (List (Square × Square))
  | [] => some []
  | (square, piece) :: rest =>
    if piece.color = color then
      match castling_moves state square piece with
      | none => none
      | some castles =>
        match candidateLoop state color square
            (piece_moves state square piece ++ castles) with
        | none => none
        | some pairs =>
          match movesLoop state color rest with
          | none => none
          | some more => some (pairs ++ more)
    else movesLoop state color rest

def legal_moves (state : GameState) (color : String) :
    Option (List (Square × Square)) :=
  movesLoop state color state.board

/-! ### Concrete positions used when settling the claims -/

/-- The initial position with the black d-pawn advanced to (4,3) and the
white e-pawn still at home; White to move. -/
def epSetupState : GameState :=
  ⟨boardSet (boardErase initial_board (1, 3)) (4, 3) ⟨"b", "P"⟩, "w",
    ⟨⟨true, true⟩, ⟨true, true⟩⟩, none⟩

/-- The state reached from `epSetupState` by White's double step (6,4)→(4,4). -/
def epDoubleState : GameState :=
  (apply_move epSetupState (6, 4) (4, 4) none).getD epSetupState

/-- A white queen one step away from the untouched black queenside rook. -/
def rookCaptureState : GameState :=
  ⟨[((1, 0), ⟨"w", "Q"⟩), ((0, 0), ⟨"b", "R"⟩)], "w",
    ⟨⟨true, true⟩, ⟨true, true⟩⟩, none⟩

/-- A white rook at (0,0) whose rightward ray ends at a white pawn on (0,7). -/
def friendlyBlockBoard : Board := [((0, 0), ⟨"w", "R"⟩), ((0, 7), ⟨"w", "P"⟩)]

/-- A white rook at (0,0) with a black pawn three squares along its ray. -/
def openRayBoard : Board := [((0, 0), ⟨"w", "R"⟩), ((0, 3), ⟨"b", "P"⟩)]

/-- White king and rooks on their home squares with (7,5)/(7,6) empty and not
attacked by Black, but White in check from the black rook on (5,4). -/
def checkedCastleState : GameState :=
  ⟨[((7, 4), ⟨"w", "K"⟩), ((7, 0), ⟨"w", "R"⟩), ((7, 7), ⟨"w", "R"⟩),
    ((5, 4), ⟨"b", "R"⟩), ((0, 0), ⟨"b", "K"⟩)], "w",
    ⟨⟨true, true⟩, ⟨true, true⟩⟩, none⟩

/-- White king and rooks on their home squares, back rank otherwise clear,
White not in check: kingside castling is available. -/
def castleReadyState : GameState :=
  ⟨[((7, 4), ⟨"w", "K"⟩), ((7, 0), ⟨"w", "R"⟩), ((7, 7), ⟨"w", "R"⟩),
    ((0, 0), ⟨"b", "K"⟩)], "w", ⟨⟨true, true⟩, ⟨true, true⟩⟩, none⟩

/-- A lone white pawn, used to probe `apply_move`'s derived-state updates. -/
def lonePawnState : GameState :=
  ⟨[((6, 4), ⟨"w", "P"⟩)], "w", ⟨⟨true, true⟩, ⟨true, true⟩⟩, none⟩

/-- A lone white pawn with White's kingside right already lost. -/
def partialRightsState : GameState :=
  ⟨[((6, 4), ⟨"w", "P"⟩)], "w", ⟨⟨false, true⟩, ⟨true, true⟩⟩, none⟩

/-- The twenty moves `legal_moves` returns for White in the initial position
(pawn single and double steps, then the four knight moves, in board order). -/
def initialWhiteMoves : List (Square × Square) :=
  [((6, 0), (5, 0)), ((6, 0), (4, 0)), ((6, 1), (5, 1)), ((6, 1), (4, 1)),
   ((6, 2), (5, 2)), ((6, 2), (4, 2)), ((6, 3), (5, 3)), ((6, 3), (4, 3)),
   ((6, 4), (5, 4)), ((6, 4), (4, 4)), ((6, 5), (5, 5)), ((6, 5), (4, 5)),
   ((6, 6), (5, 6)), ((6, 6), (4, 6)), ((6, 7), (5, 7)), ((6, 7), (4, 7)),
   ((7, 1), (5, 0)), ((7, 1), (5, 2)), ((7, 6), (5, 5)), ((7, 6), (5, 7))]

/-- The board produced by White's kingside castling move (7,4)→(7,6) from a
board `b`: king and kingside rook are popped, the rook lands on (7,5) and the
king on (7,6). This is the board part of `apply_move b (7,4) (7,6)` whenever
(7,4) holds the white king and (7,7) a rook. -/
def castledBoard (b : Board) : Board :=
  boardSet
    (boardSet (boardErase (boardErase b (7, 4)) (7, 7)) (7, 5) ⟨"w", "R"⟩)
    (7, 6) ⟨"w", "K"⟩

/-! ### Lemmas about the board operations -/

theorem in_bounds_iff (square : Square) :
    in_bounds square = true ↔
      0 ≤ square.1 ∧ square.1 < 8 ∧ 0 ≤ square.2 ∧ square.2 < 8 := by
  simp [in_bounds]

theorem is_opponent_iff (piece other : Piece) :
    is_opponent piece other = true ↔ piece.color ≠ other.color := by
  simp [is_opponent]

theorem emptyOrOpponent_iff (board : Board) (piece : Piece) (square : Square) :
    emptyOrOpponent board piece square = true ↔
      boardGet board square = none ∨
        ∃ occupant, boardGet board square = some occupant ∧
          is_opponent piece occupant = true := by
  cases h : boardGet board square <;> simp [emptyOrOpponent, h]

theorem mem_of_boardGet {b : Board} {q : Square} {p : Piece}
    (h : boardGet b q = some p) : (q, p) ∈ b := by
  induction b with
  | nil => simp [boardGet] at h
  | cons e rest ih =>
    obtain ⟨sq, r⟩ := e
    by_cases hq : sq = q
    · subst hq
      simp [boardGet] at h
      simp [h]
    · simp [boardGet, hq] at h
      exact List.mem_cons_of_mem _ (ih h)

theorem boardGet_eq_some_of_mem {b : Board} {q : Square} {p : Piece}
    (hnd : (b.map Prod.fst).Nodup) (h : (q, p) ∈ b) :
    boardGet b q = some p := by
  induction b with
  | nil => simp at h
  | cons e rest ih =>
    obtain ⟨sq, r⟩ := e
    rw [List.map_cons, List.nodup_cons] at hnd
    rcases List.mem_cons.mp h with heq | hmem
    · obtain ⟨h1, h2⟩ := Prod.mk.injEq q p sq r ▸ heq
      subst h1
      subst h2
      simp [boardGet]
    · have hne : sq ≠ q := by
        intro hqq
        subst hqq
        exact hnd.1 (List.mem_map.mpr ⟨(sq, p), hmem, rfl⟩)
      simp [boardGet, hne]
      exact ih hnd.2 hmem

theorem boardGet_erase_self (b : Board) (q : Square) :
    boardGet (boardErase b q) q = none := by
  induction b with
  | nil => rfl
  | cons e rest ih =>
    obtain ⟨sq, r⟩ := e
    by_cases hq : sq = q
    · simpa [boardErase, hq] using ih
    · simpa [boardErase, boardGet, hq] using ih

theorem boardGet_erase_ne {q q' : Square} (b : Board) (h : q' ≠ q) :
    boardGet (boardErase b q) q' = boardGet b q' := by
  induction b with
  | nil => rfl
  | cons e rest ih =>
    obtain ⟨sq, r⟩ := e
    by_cases hq : sq = q
    · subst hq
      have hne : sq ≠ q' := fun hc => h hc.symm
      simp [boardErase, boardGet, hne] at ih ⊢
      exact ih
    · by_cases hq' : sq = q'
      · subst hq'
        simp [boardErase, boardGet, hq]
      · simp [boardErase, boardGet, hq, hq'] at ih ⊢
        exact ih

theorem boardGet_set_self (b : Board) (q : Square) (p : Piece) :
    boardGet (boardSet b q p) q = some p := by
  induction b with
  | nil => simp [boardSet, boardGet]
  | cons e rest ih =>
    obtain ⟨sq, r⟩ := e
    by_cases hq : sq = q
    · simp [boardSet, boardGet, hq]
    · simp [boardSet, boardGet, hq]
      exact ih

theorem boardGet_set_ne {q q' : Square} (b : Board) (p : Piece) (h : q' ≠ q) :
    boardGet (boardSet b q p) q' = boardGet b q' := by
  induction b with
  | nil =>
    have : q ≠ q' := fun hc => h hc.symm
    simp [boardSet, boardGet, this]
  | cons e rest ih =>
    obtain ⟨sq, r⟩ := e
    by_cases hq : sq = q
    · subst hq
      have hne : sq ≠ q' := fun hc => h hc.symm
      simp [boardSet, boardGet, hne]
    · by_cases hq' : sq = q'
      · subst hq'
        simp [boardSet, boardGet, hq]
      · simp [boardSet, boardGet, hq, hq']
        exact ih

theorem mem_boardErase {e : Square × Piece} {b : Board} {q : Square} :
    e ∈ boardErase b q ↔ e ∈ b ∧ e.1 ≠ q := by
  simp [boardErase, List.mem_filter]

theorem boardSet_eq_append {b : Board} {q : Square} (p : Piece)
    (h : boardGet b q = none) : boardSet b q p = b ++ [(q, p)] := by
  induction b with
  | nil => rfl
  | cons e rest ih =>
    obtain ⟨sq, r⟩ := e
    by_cases hq : sq = q
    · simp [boardGet, hq] at h
    · simp [boardGet, hq] at h
      simp [boardSet, hq, ih h]

/-! ### Lemmas about `find_king` -/

theorem find_king_eq_none_iff {b : Board} {color : String} :
    find_king b color = none ↔
      ∀ sq p, (sq, p) ∈ b → ¬(p.color = color ∧ p.kind = "K") := by
  induction b with
  | nil => simp [find_king]
  | cons e rest ih =>
    obtain ⟨sq, r⟩ := e
    by_cases hk : r.color = color ∧ r.kind = "K"
    · rw [find_king, if_pos hk]
      constructor
      · intro h
        exact Option.noConfusion h
      · intro hall
        exact absurd hk (hall sq r (List.mem_cons_self _ _))
    · simp only [find_king, if_neg hk, ih]
      constructor
      · intro hall sq' p' hmem
        rcases List.mem_cons.mp hmem with heq | hmem'
        · obtain ⟨h1, h2⟩ := Prod.mk.injEq sq' p' sq r ▸ heq
          subst h1; subst h2
          exact hk
        · exact hall sq' p' hmem'
      · intro hall sq' p' hmem'
        exact hall sq' p' (List.mem_cons_of_mem _ hmem')

theorem find_king_append_of_none {b1 : Board} {color : String}
    (h : find_king b1 color = none) (b2 : Board) :
    find_king (b1 ++ b2) color = find_king b2 color := by
  induction b1 with
  | nil => rfl
  | cons e rest ih =>
    obtain ⟨sq, r⟩ := e
    by_cases hk : r.color = color ∧ r.kind = "K"
    · simp [find_king, hk] at h
    · simp only [find_king, if_neg hk] at h
      simpa only [List.cons_append, find_king, if_neg hk] using ih h

/-! ### The ray geometry of `sliding_moves` -/

/-- The square `k` steps from `start` along direction `d`. -/
def rayStep (d : Square) (start : Square) : Nat → Square
  | 0 => start
  | j + 1 => rayStep d (start.1 + d.1, start.2 + d.2) j

theorem rayStep_eq (d start : Square) (k : Nat) :
    rayStep d start k = (start.1 + (k : Int) * d.1, start.2 + (k : Int) * d.2) := by
  induction k generalizing start with
  | zero => simp [rayStep]
  | succ n ih =>
    rw [rayStep, ih]
    push_cast
    rw [Prod.mk.injEq]
    constructor <;> ring

theorem rayWalk_mem_intro {board : Board} {piece : Piece} {dr dc : Int}
    (k : Nat) : ∀ (fuel : Nat) (row col : Int), 1 ≤ k → k ≤ fuel →
    (∀ j : Nat, j < k → 1 ≤ j →
      in_bounds (rayStep (dr, dc) (row, col) j) = true ∧
        boardGet board (rayStep (dr, dc) (row, col) j) = none) →
    in_bounds (rayStep (dr, dc) (row, col) k) = true →
    (boardGet board (rayStep (dr, dc) (row, col) k) = none ∨
      ∃ occupant, boardGet board (rayStep (dr, dc) (row, col) k) = some occupant ∧
        is_opponent piece occupant = true) →
    rayStep (dr, dc) (row, col) k ∈ rayWalk board piece dr dc fuel row col := by
  induction k with
  | zero => intro fuel row col hk; omega
  | succ n ih =>
    intro fuel row col _ hfuel hmid hin hstop
    obtain ⟨f, rfl⟩ : ∃ f, fuel = f + 1 := ⟨fuel - 1, by omega⟩
    have hstep1 : rayStep (dr, dc) (row, col) 1 = (row + dr, col + dc) := rfl
    cases n with
    | zero =>
      rw [rayWalk]
      rw [hstep1] at hin hstop ⊢
      simp only [hin, if_true]
      rcases hstop with hnone | ⟨occupant, hocc, hopp⟩
      · rw [hnone]
        exact List.mem_cons_self _ _
      · rw [hocc]
        simp [hopp]
    | succ m =>
      have h1 := hmid 1 (by omega) (by omega)
      rw [hstep1] at h1
      rw [rayWalk]
      simp only [h1.1, if_true, h1.2]
      have hshift : ∀ j : Nat, rayStep (dr, dc) (row, col) (j + 1) =
          rayStep (dr, dc) (row + dr, col + dc) j := fun j => rfl
      refine List.mem_cons_of_mem _ ?_
      rw [hshift (m + 1)]
      exact ih f (row + dr) (col + dc) (by omega) (by omega)
        (fun j hj hj1 => by
          rw [← hshift]
          exact hmid (j + 1) (by omega) (by omega))
        (by rw [← hshift]; exact hin)
        (by rw [← hshift]; exact hstop)

theorem rayWalk_mem_inv {board : Board} {piece : Piece} {dr dc : Int}
    {t : Square} :
    ∀ (fuel : Nat) (row col : Int), t ∈ rayWalk board piece dr dc fuel row col →
    ∃ k : Nat, 1 ≤ k ∧ k ≤ fuel ∧ t = rayStep (dr, dc) (row, col) k ∧
      (∀ j : Nat, j < k → 1 ≤ j →
        in_bounds (rayStep (dr, dc) (row, col) j) = true ∧
          boardGet board (rayStep (dr, dc) (row, col) j) = none) ∧
      in_bounds t = true ∧
      (boardGet board t = none ∨
        ∃ occupant, boardGet board t = some occupant ∧
          is_opponent piece occupant = true) := by
  intro fuel
  induction fuel with
  | zero => intro row col h; simp [rayWalk] at h
  | succ f ih =>
    intro row col h
    rw [rayWalk] at h
    by_cases hin : in_bounds (row + dr, col + dc) = true
    · simp only [hin, if_true] at h
      have hstep1 : rayStep (dr, dc) (row, col) 1 = (row + dr, col + dc) := rfl
      cases hocc : boardGet board (row + dr, col + dc) with
      | some occupant =>
        rw [hocc] at h
        by_cases hopp : is_opponent piece occupant = true
        · simp only [hopp, if_true, List.mem_singleton] at h
          subst h
          refine ⟨1, le_refl 1, by omega, hstep1.symm, ?_, ?_, ?_⟩
          · intro j hj hj1; omega
          · exact hin
          · exact Or.inr ⟨occupant, hocc, hopp⟩
        · simp only [Bool.not_eq_true] at hopp
          simp [hopp] at h
      | none =>
        rw [hocc] at h
        rcases List.mem_cons.mp h with rfl | hmem
        · refine ⟨1, le_refl 1, by omega, hstep1.symm, ?_, hin, Or.inl hocc⟩
          intro j hj hj1; omega
        · obtain ⟨k, hk1, hkf, hteq, hmid, htin, hstop⟩ := ih (row + dr) (col + dc) hmem
          have hshift : ∀ j : Nat, rayStep (dr, dc) (row, col) (j + 1) =
              rayStep (dr, dc) (row + dr, col + dc) j := fun j => rfl
          refine ⟨k + 1, by omega, by omega, by rw [hshift]; exact hteq, ?_, htin, hstop⟩
          intro j hj hj1
          cases j with
          | zero => omega
          | succ i =>
            cases i with
            | zero => exact ⟨hin, by rw [hstep1]; exact hocc⟩
            | succ m =>
              rw [hshift]
              exact hmid (m + 1) (by omega) (by omega)
    · simp only [Bool.not_eq_true] at hin
      simp [hin] at h

theorem mem_sliding_moves {board : Board} {start : Square} {deltas : List Square}
    {piece : Piece} {t : Square} :
    t ∈ sliding_moves board start deltas piece ↔
      ∃ d ∈ deltas, t ∈ rayWalk board piece d.1 d.2 16 start.1 start.2 := by
  simp [sliding_moves, List.mem_flatMap]

theorem mem_knight_moves {board : Board} {start : Square} {piece : Piece}
    {t : Square} :
    t ∈ knight_moves board start piece ↔
      (∃ d ∈ knightDeltas, t = (start.1 + d.1, start.2 + d.2)) ∧
        in_bounds t = true ∧ emptyOrOpponent board piece t = true := by
  simp only [knight_moves, List.mem_filter, List.mem_map, Bool.and_eq_true]
  constructor
  · rintro ⟨⟨d, hd, rfl⟩, h1, h2⟩
    exact ⟨⟨d, hd, rfl⟩, h1, h2⟩
  · rintro ⟨⟨d, hd, rfl⟩, h1, h2⟩
    exact ⟨⟨d, hd, rfl⟩, h1, h2⟩

theorem mem_king_moves {board : Board} {start : Square} {piece : Piece}
    {t : Square} :
    t ∈ king_moves board start piece ↔
      (∃ d ∈ kingDeltas, t = (start.1 + d.1, start.2 + d.2)) ∧
        in_bounds t = true ∧ emptyOrOpponent board piece t = true := by
  simp only [king_moves, List.mem_filter, List.mem_map, Bool.and_eq_true]
  constructor
  · rintro ⟨⟨d, hd, rfl⟩, h1, h2⟩
    exact ⟨⟨d, hd, rfl⟩, h1, h2⟩
  · rintro ⟨⟨d, hd, rfl⟩, h1, h2⟩
    exact ⟨⟨d, hd, rfl⟩, h1, h2⟩

theorem mem_pawnAttackSquares {color : String} {square t : Square} :
    t ∈ pawnAttackSquares color square ↔
      (∃ dc ∈ ([-1, 1] : List Int),
        t = (square.1 + (if color = "w" then -1 else 1), square.2 + dc)) ∧
        in_bounds t = true := by
  simp only [pawnAttackSquares, List.mem_filter, List.mem_map]
  constructor
  · rintro ⟨⟨dc, hd, rfl⟩, h1⟩
    exact ⟨⟨dc, hd, rfl⟩, h1⟩
  · rintro ⟨⟨dc, hd, rfl⟩, h1⟩
    exact ⟨⟨dc, hd, rfl⟩, h1⟩

/-! ### Lemmas about `attacks` -/

theorem attacksAux_mem_intro {board : Board} {color : String}
    {l : List (Square × Piece)} {sq : Square} {p : Piece} {t : Square}
    (hmem : (sq, p) ∈ l) (hcolor : p.color = color)
    (ht : t ∈ pieceAttacks board color sq p) :
    t ∈ attacksAux board color l := by
  induction l with
  | nil => simp at hmem
  | cons e rest ih =>
    obtain ⟨sq', p'⟩ := e
    rcases List.mem_cons.mp hmem with heq | hmem'
    · obtain ⟨h1, h2⟩ := Prod.mk.injEq sq p sq' p' ▸ heq
      subst h1
      subst h2
      simp only [attacksAux, if_pos hcolor]
      exact List.mem_append_left _ ht
    · by_cases hc : p'.color = color
      · simp only [attacksAux, if_pos hc]
        exact List.mem_append_right _ (ih hmem')
      · simpa only [attacksAux, if_neg hc] using ih hmem'

theorem attacksAux_mem_inv {board : Board} {color : String}
    {l : List (Square × Piece)} {t : Square}
    (h : t ∈ attacksAux board color l) :
    ∃ sq p, (sq, p) ∈ l ∧ p.color = color ∧
      t ∈ pieceAttacks board color sq p := by
  induction l with
  | nil => simp [attacksAux] at h
  | cons e rest ih =>
    obtain ⟨sq', p'⟩ := e
    by_cases hc : p'.color = color
    · rw [attacksAux, if_pos hc] at h
      rcases List.mem_append.mp h with hl | hr
      · exact ⟨sq', p', List.mem_cons_self _ _, hc, hl⟩
      · obtain ⟨sq, p, hmem, hcol, ht⟩ := ih hr
        exact ⟨sq, p, List.mem_cons_of_mem _ hmem, hcol, ht⟩
    · rw [attacksAux, if_neg hc] at h
      obtain ⟨sq, p, hmem, hcol, ht⟩ := ih h
      exact ⟨sq, p, List.mem_cons_of_mem _ hmem, hcol, ht⟩

theorem attacks_mem_intro {board : Board} {color : String} {sq : Square}
    {p : Piece} {t : Square} (hmem : (sq, p) ∈ board) (hcolor : p.color = color)
    (ht : t ∈ pieceAttacks board color sq p) : t ∈ attacks board color :=
  attacksAux_mem_intro hmem hcolor ht

theorem attacks_mem_inv {board : Board} {color : String} {t : Square}
    (h : t ∈ attacks board color) :
    ∃ sq p, (sq, p) ∈ board ∧ p.color = color ∧
      t ∈ pieceAttacks board color sq p :=
  attacksAux_mem_inv h

/-! ### Lemmas about the `legal_moves` loops -/

theorem candidateLoop_mem_inv {state : GameState} {color : String}
    {square : Square} {ts : List Square} {pairs : List (Square × Square)}
    {o d : Square} (h : candidateLoop state color square ts = some pairs)
    (hmem : (o, d) ∈ pairs) :
    o = square ∧ d ∈ ts ∧
      ∃ s', apply_move state square d none = some s' ∧
        is_in_check s' color = false := by
  induction ts generalizing pairs with
  | nil =>
    rw [candidateLoop] at h
    obtain rfl := Option.some.injEq .. ▸ h.symm
    simp at hmem
  | cons t rest ih =>
    rw [candidateLoop] at h
    cases happ : apply_move state square t none with
    | none => rw [happ] at h; exact Option.noConfusion h
    | some candidate =>
      rw [happ] at h
      cases hrec : candidateLoop state color square rest with
      | none => rw [hrec] at h; exact Option.noConfusion h
      | some prev =>
        rw [hrec] at h
        have hpairs : pairs =
            if is_in_check candidate color = true then prev
            else (square, t) :: prev := (Option.some.injEq .. ▸ h).symm
        by_cases hchk : is_in_check candidate color = true
        · rw [if_pos hchk] at hpairs
          subst hpairs
          obtain ⟨ho, hd, hs⟩ := ih hrec hmem
          exact ⟨ho, List.mem_cons_of_mem _ hd, hs⟩
        · rw [if_neg hchk] at hpairs
          subst hpairs
          rcases List.mem_cons.mp hmem with heq | hmem'
          · obtain ⟨h1, h2⟩ := Prod.mk.injEq o d square t ▸ heq
            subst h1
            subst h2
            exact ⟨rfl, List.mem_cons_self _ _,
              candidate, happ, Bool.not_eq_true _ ▸ hchk⟩
          · obtain ⟨ho, hd, hs⟩ := ih hrec hmem'
            exact ⟨ho, List.mem_cons_of_mem _ hd, hs⟩

theorem candidateLoop_mem_intro {state : GameState} {color : String}
    {square : Square} {ts : List Square} {pairs : List (Square × Square)}
    {d : Square} {s' : GameState}
    (h : candidateLoop state color square ts = some pairs) (hd : d ∈ ts)
    (happ : apply_move state square d none = some s')
    (hchk : is_in_check s' color = false) : (square, d) ∈ pairs := by
  induction ts generalizing pairs with
  | nil => simp at hd
  | cons t rest ih =>
    rw [candidateLoop] at h
    cases happ' : apply_move state square t none with
    | none => rw [happ'] at h; exact Option.noConfusion h
    | some candidate =>
      rw [happ'] at h
      cases hrec : candidateLoop state color square rest with
      | none => rw [hrec] at h; exact Option.noConfusion h
      | some prev =>
        rw [hrec] at h
        have hpairs : pairs =
            if is_in_check candidate color = true then prev
            else (square, t) :: prev := (Option.some.injEq .. ▸ h).symm
        rcases List.mem_cons.mp hd with rfl | hd'
        · rw [happ'] at happ
          obtain rfl := Option.some.injEq .. ▸ happ.symm
          rw [hpairs, if_neg (by rw [hchk]; exact Bool.false_ne_true)]
          exact List.mem_cons_self _ _
        · have hmem := ih hrec hd'
          subst hpairs
          by_cases hc : is_in_check candidate color = true
          · rwa [if_pos hc]
          · rw [if_neg hc]
            exact List.mem_cons_of_mem _ hmem

theorem candidateLoop_isSome {state : GameState} {color : String}
    {square : Square} {ts : List Square}
    (h : ∀ t ∈ ts, (apply_move state square t none).isSome = true) :
    (candidateLoop state color square ts).isSome = true := by
  induction ts with
  | nil => rw [candidateLoop]; rfl
  | cons t rest ih =>
    rw [candidateLoop]
    obtain ⟨s', hs'⟩ := Option.isSome_iff_exists.mp (h t (List.mem_cons_self _ _))
    rw [hs']
    obtain ⟨prev, hprev⟩ := Option.isSome_iff_exists.mp
      (ih (fun u hu => h u (List.mem_cons_of_mem _ hu)))
    rw [hprev]
    rfl

theorem movesLoop_mem_inv {state : GameState} {color : String}
    {l : List (Square × Piece)} {ms : List (Square × Square)} {o d : Square}
    (h : movesLoop state color l = some ms) (hmem : (o, d) ∈ ms) :
    ∃ p castles, (o, p) ∈ l ∧ p.color = color ∧
      castling_moves state o p = some castles ∧
      d ∈ piece_moves state o p ++ castles ∧
      ∃ s', apply_move state o d none = some s' ∧
        is_in_check s' color = false := by
  induction l generalizing ms with
  | nil =>
    rw [movesLoop] at h
    obtain rfl := Option.some.injEq .. ▸ h.symm
    simp at hmem
  | cons e rest ih =>
    obtain ⟨square, piece⟩ := e
    rw [movesLoop] at h
    by_cases hc : piece.color = color
    · rw [if_pos hc] at h
      cases hcas : castling_moves state square piece with
      | none => simp only [hcas] at h; exact Option.noConfusion h
      | some castles =>
        simp only [hcas] at h
        cases hcand : candidateLoop state color square
            (piece_moves state square piece ++ castles) with
        | none => simp only [hcand] at h; exact Option.noConfusion h
        | some pairs =>
          simp only [hcand] at h
          cases hrec : movesLoop state color rest with
          | none => simp only [hrec] at h; exact Option.noConfusion h
          | some more =>
            simp only [hrec] at h
            obtain rfl := Option.some.injEq .. ▸ h.symm
            rcases List.mem_append.mp hmem with hl | hr
            · obtain ⟨rfl, hd, hs⟩ := candidateLoop_mem_inv hcand hl
              exact ⟨piece, castles, List.mem_cons_self _ _, hc, hcas, hd, hs⟩
            · obtain ⟨p, castles', hmem', hcol, hcas', hd, hs⟩ := ih hrec hr
              exact ⟨p, castles', List.mem_cons_of_mem _ hmem', hcol, hcas', hd, hs⟩
    · rw [if_neg hc] at h
      obtain ⟨p, castles', hmem', hcol, hcas', hd, hs⟩ := ih h hmem
      exact ⟨p, castles', List.mem_cons_of_mem _ hmem', hcol, hcas', hd, hs⟩

theorem movesLoop_mem_intro {state : GameState} {color : String}
    {l : List (Square × Piece)} {ms : List (Square × Square)} {o d : Square}
    {p : Piece} {castles : List Square} {s' : GameState}
    (h : movesLoop state color l = some ms) (hmem : (o, p) ∈ l)
    (hc : p.color = color) (hcas : castling_moves state o p = some castles)
    (hd : d ∈ piece_moves state o p ++ castles)
    (happ : apply_move state o d none = some s')
    (hchk : is_in_check s' color = false) : (o, d) ∈ ms := by
  induction l generalizing ms with
  | nil => simp at hmem
  | cons e rest ih =>
    obtain ⟨square, piece⟩ := e
    rw [movesLoop] at h
    by_cases hc' : piece.color = color
    · rw [if_pos hc'] at h
      cases hcas' : castling_moves state square piece with
      | none => simp only [hcas'] at h; exact Option.noConfusion h
      | some castles' =>
        simp only [hcas'] at h
        cases hcand : candidateLoop state color square
            (piece_moves state square piece ++ castles') with
        | none => simp only [hcand] at h; exact Option.noConfusion h
        | some pairs =>
          simp only [hcand] at h
          cases hrec : movesLoop state color rest with
          | none => simp only [hrec] at h; exact Option.noConfusion h
          | some more =>
            simp only [hrec] at h
            obtain rfl := Option.some.injEq .. ▸ h.symm
            rcases List.mem_cons.mp hmem with heq | hmem'
            · obtain ⟨h1, h2⟩ := Prod.mk.injEq o p square piece ▸ heq
              subst h1
              subst h2
              rw [hcas'] at hcas
              obtain rfl := Option.some.injEq .. ▸ hcas.symm
              exact List.mem_append_left _
                (candidateLoop_mem_intro hcand hd happ hchk)
            · exact List.mem_append_right _ (ih hrec hmem')
    · rw [if_neg hc'] at h
      rcases List.mem_cons.mp hmem with heq | hmem'
      · obtain ⟨h1, h2⟩ := Prod.mk.injEq o p square piece ▸ heq
        subst h1
        subst h2
        exact absurd hc hc'
      · exact ih h hmem'

theorem movesLoop_isSome {state : GameState} {color : String}
    {l : List (Square × Piece)}
    (h : ∀ square piece, (square, piece) ∈ l → piece.color = color →
      ∃ castles, castling_moves state square piece = some castles ∧
        ∀ t ∈ piece_moves state square piece ++ castles,
          (apply_move state square t none).isSome = true) :
    (movesLoop state color l).isSome = true := by
  induction l with
  | nil => rw [movesLoop]; rfl
  | cons e rest ih =>
    obtain ⟨square, piece⟩ := e
    rw [movesLoop]
    have hrest : (movesLoop state color rest).isSome = true :=
      ih (fun sq p hm hc => h sq p (List.mem_cons_of_mem _ hm) hc)
    by_cases hc : piece.color = color
    · rw [if_pos hc]
      obtain ⟨castles, hcas, happ⟩ := h square piece (List.mem_cons_self _ _) hc
      obtain ⟨pairs, hpairs⟩ := Option.isSome_iff_exists.mp
        (@candidateLoop_isSome state color square _ happ)
      obtain ⟨more, hmore⟩ := Option.isSome_iff_exists.mp hrest
      simp only [hcas, hpairs, hmore, Option.isSome_some]
    · rw [if_neg hc]
      exact hrest

/-! ### Decomposing `apply_move` -/

theorem epCaptureBoard_of_not_pawn {state : GameState} {piece : Piece}
    {b : Board} {finish : Square} (h : piece.kind ≠ "P") :
    epCaptureBoard state piece b finish = b := by
  unfold epCaptureBoard
  cases state.en_passant with
  | none => rfl
  | some ep => simp [h]

theorem castleBoard_of_not {piece : Piece} {start finish : Square} {b : Board}
    (h : ¬(piece.kind = "K" ∧ (finish.2 - start.2).natAbs = 2)) :
    castleBoard piece start finish b = some b := by
  simp [castleBoard, h]

theorem castleBoard_of_rook {piece : Piece} {start finish : Square} {b : Board}
    {rook : Piece} (hk : piece.kind = "K") (habs : (finish.2 - start.2).natAbs = 2)
    (hrook : boardGet b (if finish.2 = 6 then (start.1, 7) else (start.1, 0)) =
      some rook) :
    castleBoard piece start finish b =
      some (boardSet
        (boardErase b (if finish.2 = 6 then (start.1, 7) else (start.1, 0)))
        (if finish.2 = 6 then (start.1, 5) else (start.1, 3)) rook) := by
  unfold castleBoard
  rw [if_pos ⟨hk, habs⟩]
  by_cases h6 : finish.2 = 6
  · simp only [h6, if_pos rfl] at hrook ⊢
    rw [hrook]
  · simp only [if_neg h6] at hrook ⊢
    rw [hrook]

theorem promoteBoard_of_not {piece : Piece} {finish : Square}
    {pc : Option String} {b : Board}
    (h : ¬(piece.kind = "P" ∧
      ((piece.color = "w" ∧ finish.1 = 0) ∨ (piece.color = "b" ∧ finish.1 = 7)))) :
    promoteBoard piece finish pc b = b := by
  simp [promoteBoard, h]

theorem kingRights_of_not {piece : Piece} {cr : CastlingRights}
    (h : piece.kind ≠ "K") : kingRights piece cr = some cr := by
  simp [kingRights, h]

theorem rookRights_of_not {piece : Piece} {start : Square} {cr : CastlingRights}
    (h : piece.kind ≠ "R") : rookRights piece start cr = cr := by
  simp [rookRights, h]

/-- Master decomposition: once the origin piece, the castling block and the
king-rights block are resolved, `apply_move` succeeds and its result is the
composition of the named stages. -/
theorem apply_move_eq_of {state : GameState} {o d : Square} {pc : Option String}
    {p : Piece} {b2 : Board} {cr1 : CastlingRights}
    (hp : boardGet state.board o = some p)
    (hcast : castleBoard p o d
      (epCaptureBoard state p (boardErase state.board o) d) = some b2)
    (hkr : kingRights p state.castling_rights = some cr1) :
    apply_move state o d pc =
      some ⟨promoteBoard p d pc (boardSet b2 d p),
            if state.current = "w" then "b" else "w",
            capturedRights (boardGet (boardErase state.board o) d) d
              (rookRights p o cr1),
            newEnPassantTarget p o d⟩ := by
  simp only [apply_move, hp, hcast, hkr]

theorem apply_move_none_of_empty {state : GameState} {o d : Square}
    {pc : Option String} (hp : boardGet state.board o = none) :
    apply_move state o d pc = none := by
  simp only [apply_move, hp]

/-! ### Claims C1, C5, C6 -/

set_option maxRecDepth 10000 in
/-- The exact list of White's legal moves in the initial position. -/
theorem initial_legal_moves_eq :
    legal_moves initial_state ("w") = some initialWhiteMoves := by
  decide

/-- Claim C5: `legal_moves(initial_state(), White)` returns exactly 20
entries. -/
theorem initial_legal_moves_count :
    (legal_moves initial_state ("w")).map List.length = some 20 := by
  rw [initial_legal_moves_eq]
  rfl

/-- Claim C1: every pair (origin, destination) returned by `legal_moves` for a
color leaves that color out of check: applying the move (with the default
promotion, as `legal_moves` itself does) yields a state for which
`is_in_check` is false. -/
theorem legal_moves_never_leave_check {state : GameState} {color : String}
    {ms : List (Square × Square)} {o d : Square}
    (h : legal_moves state color = some ms) (hmem : (o, d) ∈ ms) :
    ∃ s', apply_move state o d none = some s' ∧
      is_in_check s' color = false := by
  obtain ⟨p, castles, _, _, _, _, hs⟩ := movesLoop_mem_inv h hmem
  exact hs

set_option maxRecDepth 10000 in
/-- Witness for claim C1 at the initial position and the double pawn step
(6,4)→(4,4), which is among the twenty returned moves. -/
theorem legal_moves_never_leave_check_witness :
    ∃ s', apply_move initial_state (6, 4) (4, 4) none = some s' ∧
      is_in_check s' ("w") = false :=
  legal_moves_never_leave_check initial_legal_moves_eq (by decide)

set_option maxRecDepth 10000 in
/-- Claim C6: after White's double step (6,4)→(4,4) with a black pawn on
(4,3), the en-passant target is (5,4); Black's legal moves contain
(4,3)→(5,4); applying it removes the white pawn at (4,4), vacates (4,3), and
puts the black pawn on the previously empty square (5,4). -/
theorem en_passant_scenario :
    apply_move epSetupState (6, 4) (4, 4) none = some epDoubleState ∧
    epDoubleState.en_passant = some (5, 4) ∧
    boardGet epDoubleState.board (4, 4) = some ⟨"w", "P"⟩ ∧
    boardGet epDoubleState.board (4, 3) = some ⟨"b", "P"⟩ ∧
    boardGet epDoubleState.board (5, 4) = none ∧
    (legal_moves epDoubleState ("b")).isSome = true ∧
    ((4, 3), (5, 4)) ∈ (legal_moves epDoubleState ("b")).getD [] ∧
    (apply_move epDoubleState (4, 3) (5, 4) none).map
        (fun s => (boardGet s.board (4, 4), boardGet s.board (5, 4),
          boardGet s.board (4, 3))) = some (none, some ⟨"b", "P"⟩, none) := by
  decide

/-! ### Claim C4 -/

/-- Claim C4 counterexample: the origin square (4,4) of the initial position
is empty, and `apply_move` raises a `KeyError` there (modelled by `none`)
instead of silently returning a `GameState`. -/
theorem apply_move_missing_origin_cex :
    boardGet initial_state.board (4, 4) = none ∧
      apply_move initial_state (4, 4) (3, 4) none = none := by
  decide

/-- Claim C4 (amended): `apply_move` performs no legality validation, but it
does dereference its inputs: it raises on an unoccupied origin, and a
two-column king move additionally requires the corresponding rook square to
be occupied (and a king's color must be one of the two real colors, or the
rights update raises). Under those dereference conditions it silently
returns a `GameState` for every pair, legal or not. -/
theorem apply_move_succeeds_on_occupied {state : GameState} {o d : Square}
    {pc : Option String} {p : Piece}
    (hp : boardGet state.board o = some p)
    (hking : p.kind = "K" →
      (p.color = "w" ∨ p.color = "b") ∧
        ((d.2 - o.2).natAbs = 2 →
          (boardGet (boardErase state.board o)
              (if d.2 = 6 then (o.1, 7) else (o.1, 0))).isSome = true)) :
    (apply_move state o d pc).isSome = true := by
  have hkr : ∃ cr1, kingRights p state.castling_rights = some cr1 := by
    by_cases hK : p.kind = "K"
    · by_cases hw : p.color = "w"
      · exact ⟨CastlingRights.mk ⟨false, false⟩ state.castling_rights.b,
          by simp [kingRights, hK, hw]⟩
      · have hb : p.color = "b" := ((hking hK).1).resolve_left hw
        exact ⟨CastlingRights.mk state.castling_rights.w ⟨false, false⟩,
          by simp [kingRights, hK, hw, hb]⟩
    · exact ⟨state.castling_rights, kingRights_of_not hK⟩
  obtain ⟨cr1, hkr⟩ := hkr
  have hcast : ∃ b2, castleBoard p o d
      (epCaptureBoard state p (boardErase state.board o) d) = some b2 := by
    by_cases hc : p.kind = "K" ∧ (d.2 - o.2).natAbs = 2
    · have hPK : p.kind ≠ "P" := by rw [hc.1]; decide
      have hep : epCaptureBoard state p (boardErase state.board o) d =
          boardErase state.board o := epCaptureBoard_of_not_pawn hPK
      obtain ⟨rook, hrook⟩ :=
        Option.isSome_iff_exists.mp ((hking hc.1).2 hc.2)
      rw [hep]
      exact ⟨_, castleBoard_of_rook hc.1 hc.2 hrook⟩
    · exact ⟨_, castleBoard_of_not hc⟩
  obtain ⟨b2, hcast⟩ := hcast
  rw [apply_move_eq_of hp hcast hkr]
  rfl

/-- Witness for the amended claim C4: a pawn move from an occupied origin
(the origin check is all that is needed for a non-king piece). -/
theorem apply_move_succeeds_on_occupied_witness :
    (apply_move initial_state (6, 4) (5, 5) none).isSome = true :=
  @apply_move_succeeds_on_occupied initial_state (6, 4) (5, 5) none
    ⟨"w", "P"⟩ (by decide) (by decide)

/-- Inversion: a successful `apply_move` determines the origin piece, the
resolved castling block and king-rights block, and the exact result state. -/
theorem apply_move_some_inv {state : GameState} {o d : Square}
    {pc : Option String} {s' : GameState}
    (h : apply_move state o d pc = some s') :
    ∃ p b2 cr1, boardGet state.board o = some p ∧
      castleBoard p o d
        (epCaptureBoard state p (boardErase state.board o) d) = some b2 ∧
      kingRights p state.castling_rights = some cr1 ∧
      s' = ⟨promoteBoard p d pc (boardSet b2 d p),
            if state.current = "w" then "b" else "w",
            capturedRights (boardGet (boardErase state.board o) d) d
              (rookRights p o cr1),
            newEnPassantTarget p o d⟩ := by
  cases hp : boardGet state.board o with
  | none => rw [apply_move_none_of_empty hp] at h; exact Option.noConfusion h
  | some p =>
    simp only [apply_move, hp] at h
    cases hcast : castleBoard p o d
        (epCaptureBoard state p (boardErase state.board o) d) with
    | none => simp only [hcast] at h; exact Option.noConfusion h
    | some b2 =>
      simp only [hcast] at h
      cases hkr : kingRights p state.castling_rights with
      | none => simp only [hkr] at h; exact Option.noConfusion h
      | some cr1 =>
        simp only [hkr] at h
        exact ⟨p, b2, cr1, rfl, hcast, hkr, (Option.some.injEq .. ▸ h).symm⟩

/-! ### Claim C8 -/

/-- Claim C8 counterexample: a pawn moved two rows and four columns (a pair
`apply_move` accepts although no generator produces it) gets en-passant
target (5,4) — the column of the origin, not of the destination (5,0). -/
theorem en_passant_target_column_cex :
    (apply_move lonePawnState (6, 4) (4, 0) none).map GameState.en_passant =
        some (some (5, 4)) ∧
      ((5, 4) : Square) ≠ (5, 0) := by
  decide

/-- Claim C8 (amended): the resulting `EnPassantTarget` equals the square
between origin and destination rows in the *origin's* column — i.e.
`((origin.row + destination.row) // 2, origin.column)` — whenever the moved
piece is a pawn whose row changed by two (this is the square immediately
behind the destination whenever origin and destination share a column, as in
every generated double step), and is `None` in every other case. -/
theorem en_passant_target_update {state : GameState} {o d : Square}
    {pc : Option String} {s' : GameState}
    (h : apply_move state o d pc = some s') :
    ∃ p, boardGet state.board o = some p ∧
      s'.en_passant =
        (if p.kind = "P" ∧ (d.1 - o.1).natAbs = 2 then
          some (Int.fdiv (o.1 + d.1) 2, o.2)
        else none) := by
  obtain ⟨p, b2, cr1, hp, hcast, hkr, rfl⟩ := apply_move_some_inv h
  exact ⟨p, hp, rfl⟩

/-- Witness for the amended claim C8: the double step (6,4)→(4,4) of a lone
white pawn yields target (5,4). -/
theorem en_passant_target_update_witness :
    ∃ p, boardGet lonePawnState.board (6, 4) = some p ∧
      ((apply_move lonePawnState (6, 4) (4, 4) none).getD lonePawnState).en_passant =
        (if p.kind = "P" ∧ (((4 : Int) - 6).natAbs = 2) then
          some (Int.fdiv ((6 : Int) + 4) 2, (4 : Int))
        else none) := by
  obtain ⟨p, hp, hep⟩ :=
    en_passant_target_update
      (show apply_move lonePawnState (6, 4) (4, 4) none =
        some ((apply_move lonePawnState (6, 4) (4, 4) none).getD lonePawnState)
        by decide)
  exact ⟨p, hp, hep⟩

/-! ### Claim C9 -/

theorem clearRightsRookMove_keeps_false (start : Square) (cr : CastlingRights) :
    (cr.w.K = false → (clearRightsRookMove start cr).w.K = false) ∧
    (cr.w.Q = false → (clearRightsRookMove start cr).w.Q = false) ∧
    (cr.b.K = false → (clearRightsRookMove start cr).b.K = false) ∧
    (cr.b.Q = false → (clearRightsRookMove start cr).b.Q = false) := by
  simp only [clearRightsRookMove]
  split_ifs <;> simp_all

theorem clearRightsCapture_keeps_false (finish : Square) (cr : CastlingRights) :
    (cr.w.K = false → (clearRightsCapture finish cr).w.K = false) ∧
    (cr.w.Q = false → (clearRightsCapture finish cr).w.Q = false) ∧
    (cr.b.K = false → (clearRightsCapture finish cr).b.K = false) ∧
    (cr.b.Q = false → (clearRightsCapture finish cr).b.Q = false) := by
  simp only [clearRightsCapture]
  split_ifs <;> simp_all

theorem rookRights_keeps_false (piece : Piece) (start : Square)
    (cr : CastlingRights) :
    (cr.w.K = false → (rookRights piece start cr).w.K = false) ∧
    (cr.w.Q = false → (rookRights piece start cr).w.Q = false) ∧
    (cr.b.K = false → (rookRights piece start cr).b.K = false) ∧
    (cr.b.Q = false → (rookRights piece start cr).b.Q = false) := by
  unfold rookRights
  split_ifs
  · exact clearRightsRookMove_keeps_false start cr
  · simp

theorem capturedRights_keeps_false (captured : Option Piece) (finish : Square)
    (cr : CastlingRights) :
    (cr.w.K = false → (capturedRights captured finish cr).w.K = false) ∧
    (cr.w.Q = false → (capturedRights captured finish cr).w.Q = false) ∧
    (cr.b.K = false → (capturedRights captured finish cr).b.K = false) ∧
    (cr.b.Q = false → (capturedRights captured finish cr).b.Q = false) := by
  cases captured with
  | none => simp [capturedRights]
  | some cap =>
    simp only [capturedRights]
    split_ifs
    · exact clearRightsCapture_keeps_false finish cr
    · simp

theorem kingRights_keeps_false {piece : Piece} {cr cr1 : CastlingRights}
    (h : kingRights piece cr = some cr1) :
    (cr.w.K = false → cr1.w.K = false) ∧
    (cr.w.Q = false → cr1.w.Q = false) ∧
    (cr.b.K = false → cr1.b.K = false) ∧
    (cr.b.Q = false → cr1.b.Q = false) := by
  unfold kingRights at h
  split_ifs at h <;>
    first
      | (obtain rfl := Option.some.injEq .. ▸ h.symm; simp_all)
      | exact Option.noConfusion h

/-- Claim C9: castling rights are monotone — each of the four booleans is
false in `apply_move`'s result whenever it was false in the input; a right is
never turned back on. -/
theorem castling_rights_monotone {state : GameState} {o d : Square}
    {pc : Option String} {s' : GameState}
    (h : apply_move state o d pc = some s') :
    (state.castling_rights.w.K = false → s'.castling_rights.w.K = false) ∧
    (state.castling_rights.w.Q = false → s'.castling_rights.w.Q = false) ∧
    (state.castling_rights.b.K = false → s'.castling_rights.b.K = false) ∧
    (state.castling_rights.b.Q = false → s'.castling_rights.b.Q = false) := by
  obtain ⟨p, b2, cr1, hp, hcast, hkr, rfl⟩ := apply_move_some_inv h
  have h1 := kingRights_keeps_false hkr
  have h2 := rookRights_keeps_false p o cr1
  have h3 := capturedRights_keeps_false
    (boardGet (boardErase state.board o) d) d (rookRights p o cr1)
  exact ⟨fun hf => h3.1 (h2.1 (h1.1 hf)),
         fun hf => h3.2.1 (h2.2.1 (h1.2.1 hf)),
         fun hf => h3.2.2.1 (h2.2.2.1 (h1.2.2.1 hf)),
         fun hf => h3.2.2.2 (h2.2.2.2 (h1.2.2.2 hf))⟩

/-- Witness for claim C9: a pawn move in a state that has already lost
White's kingside right keeps that right off. -/
theorem castling_rights_monotone_witness :
    ((apply_move partialRightsState (6, 4) (5, 4) none).getD
        partialRightsState).castling_rights.w.K = false := by
  have h := castling_rights_monotone
    (show apply_move partialRightsState (6, 4) (5, 4) none =
      some ((apply_move partialRightsState (6, 4) (5, 4) none).getD
        partialRightsState) by decide)
  exact h.1 (by decide)

/-! ### Claim C2 -/

/-- Claim C2 counterexample: a white *queen* (neither king nor rook) captures
the black rook on its home corner (0,0), and Black's queenside right flips
from true to false. -/
theorem rights_change_non_king_rook_cex :
    boardGet rookCaptureState.board (1, 0) = some ⟨"w", "Q"⟩ ∧
    rookCaptureState.castling_rights = ⟨⟨true, true⟩, ⟨true, true⟩⟩ ∧
    (apply_move rookCaptureState (1, 0) (0, 0) none).map
        GameState.castling_rights = some ⟨⟨true, true⟩, ⟨true, false⟩⟩ := by
  decide

/-- Claim C2 (amended): moving a piece that is neither a king nor a rook
leaves the `CastlingRights` of both colors unchanged — provided the move does
not capture a rook standing on one of the four corner squares (7,0), (7,7),
(0,0), (0,7), in which case the source clears the corresponding right
regardless of which piece captured it. -/
theorem rights_unchanged_non_king_rook {state : GameState} {o d : Square}
    {pc : Option String} {p : Piece}
    (hp : boardGet state.board o = some p) (hK : p.kind ≠ "K")
    (hR : p.kind ≠ "R")
    (hcap : ∀ cap, boardGet (boardErase state.board o) d = some cap →
      cap.kind = "R" → d ≠ ((7 : Int), (0 : Int)) ∧ d ≠ ((7 : Int), (7 : Int)) ∧
        d ≠ ((0 : Int), (0 : Int)) ∧ d ≠ ((0 : Int), (7 : Int))) :
    ∃ s', apply_move state o d pc = some s' ∧
      s'.castling_rights = state.castling_rights := by
  have hcast : castleBoard p o d
      (epCaptureBoard state p (boardErase state.board o) d) =
        some (epCaptureBoard state p (boardErase state.board o) d) :=
    castleBoard_of_not (fun hc => hK hc.1)
  refine ⟨_, apply_move_eq_of hp hcast (kingRights_of_not hK), ?_⟩
  show capturedRights (boardGet (boardErase state.board o) d) d
      (rookRights p o state.castling_rights) = state.castling_rights
  rw [rookRights_of_not hR]
  cases hcapv : boardGet (boardErase state.board o) d with
  | none => rfl
  | some cap =>
    simp only [capturedRights]
    by_cases hcr : cap.kind = "R"
    · obtain ⟨h1, h2, h3, h4⟩ := hcap cap hcapv hcr
      rw [if_pos hcr]
      simp only [clearRightsCapture, if_neg h1, if_neg h2, if_neg h3, if_neg h4]
    · rw [if_neg hcr]

/-- Witness for the amended claim C2: a quiet queen move leaves all four
rights untouched. -/
theorem rights_unchanged_non_king_rook_witness :
    ∃ s', apply_move rookCaptureState (1, 0) (1, 5) none = some s' ∧
      s'.castling_rights = rookCaptureState.castling_rights :=
  @rights_unchanged_non_king_rook rookCaptureState (1, 0) (1, 5) none
    ⟨"w", "Q"⟩ (by decide) (by decide) (by decide)
    (fun cap hc => Option.noConfusion hc)

/-! ### Claim C3 -/

/-- Claim C3 counterexample: the white rook's rightward ray from (0,0) runs
through six empty squares and stops at the white pawn on (0,7); that first
occupied square is *not* in the attacked set, although the claim includes it
"regardless of which color occupies it". -/
theorem attacks_friendly_stop_cex :
    boardGet friendlyBlockBoard (0, 0) = some ⟨"w", "R"⟩ ∧
    boardGet friendlyBlockBoard (0, 1) = none ∧
    boardGet friendlyBlockBoard (0, 2) = none ∧
    boardGet friendlyBlockBoard (0, 3) = none ∧
    boardGet friendlyBlockBoard (0, 4) = none ∧
    boardGet friendlyBlockBoard (0, 5) = none ∧
    boardGet friendlyBlockBoard (0, 6) = none ∧
    boardGet friendlyBlockBoard (0, 7) = some ⟨"w", "P"⟩ ∧
    ((0, 7) : Square) ∉ attacks friendlyBlockBoard ("w") := by
  decide

/-- Claim C3 (amended): for every board and color, the attacked-squares list
contains, for each bishop/rook/queen of that color and each of its ray
directions, every square along the ray that is preceded only by empty
in-bounds squares and is itself in bounds and either empty or occupied by an
*opponent* piece. A ray stops at the first occupied square; that square is
included only when the occupant belongs to the other color — a friendly
first-occupied square is excluded. -/
theorem attacks_contains_open_ray {board : Board} {color : String}
    {sq : Square} {p : Piece} {delta : Square} {k : Nat}
    (hmem : (sq, p) ∈ board) (hcolor : p.color = color)
    (hdelta : (p.kind = "B" ∧ delta ∈ bishopDeltas) ∨
      (p.kind = "R" ∧ delta ∈ rookDeltas) ∨
      (p.kind = "Q" ∧ delta ∈ queenDeltas))
    (hk : 1 ≤ k)
    (hmid : ∀ j : Nat, j < k → 1 ≤ j →
      in_bounds (rayStep delta sq j) = true ∧
        boardGet board (rayStep delta sq j) = none)
    (hin : in_bounds (rayStep delta sq k) = true)
    (hstop : boardGet board (rayStep delta sq k) = none ∨
      ∃ occupant, boardGet board (rayStep delta sq k) = some occupant ∧
        occupant.color ≠ p.color) :
    rayStep delta sq k ∈ attacks board color := by
  have hstop2 : boardGet board (rayStep delta sq k) = none ∨
      ∃ occupant, boardGet board (rayStep delta sq k) = some occupant ∧
        is_opponent p occupant = true := by
    rcases hstop with hnone | ⟨occupant, hocc, hne⟩
    · exact Or.inl hnone
    · exact Or.inr ⟨occupant, hocc,
        by rw [is_opponent_iff]; exact fun hc => hne hc.symm⟩
  have hk16 : k ≤ 16 := by
    by_cases hk1 : k = 1
    · omega
    · have hb1 := (hmid 1 (by omega) (by omega)).1
      have hin' := hin
      rw [rayStep_eq, in_bounds_iff] at hb1 hin'
      have hunit : (delta.1 = -1 ∨ delta.1 = 0 ∨ delta.1 = 1) ∧
          (delta.2 = -1 ∨ delta.2 = 0 ∨ delta.2 = 1) ∧
          ¬(delta.1 = 0 ∧ delta.2 = 0) := by
        rcases hdelta with ⟨_, hd⟩ | ⟨_, hd⟩ | ⟨_, hd⟩ <;> fin_cases hd <;> simp
      obtain ⟨hd1, hd2, hd0⟩ := hunit
      have hd0' : delta.1 ≠ 0 ∨ delta.2 ≠ 0 := by
        by_contra hc
        push_neg at hc
        exact hd0 hc
      rcases hd1 with h1 | h1 | h1 <;> rcases hd2 with h2 | h2 | h2 <;>
        rw [h1, h2] at hb1 hin' <;>
        rcases hd0' with h0 | h0 <;> omega
  have hwalk : rayStep delta sq k ∈ rayWalk board p delta.1 delta.2 16 sq.1 sq.2 :=
    rayWalk_mem_intro k 16 sq.1 sq.2 hk hk16 hmid hin hstop2
  rcases hdelta with ⟨hkind, hd⟩ | ⟨hkind, hd⟩ | ⟨hkind, hd⟩
  · refine attacks_mem_intro hmem hcolor ?_
    have hpa : pieceAttacks board color sq p =
        sliding_moves board sq bishopDeltas p := by
      simp [pieceAttacks, hkind]
    rw [hpa]
    exact mem_sliding_moves.mpr ⟨delta, hd, hwalk⟩
  · refine attacks_mem_intro hmem hcolor ?_
    have hpa : pieceAttacks board color sq p =
        sliding_moves board sq rookDeltas p := by
      simp [pieceAttacks, hkind]
    rw [hpa]
    exact mem_sliding_moves.mpr ⟨delta, hd, hwalk⟩
  · refine attacks_mem_intro hmem hcolor ?_
    have hpa : pieceAttacks board color sq p =
        sliding_moves board sq queenDeltas p := by
      simp [pieceAttacks, hkind]
    rw [hpa]
    exact mem_sliding_moves.mpr ⟨delta, hd, hwalk⟩

/-- Witness for the amended claim C3: the rook on (0,0) attacks the black
pawn three squares along its rightward ray. -/
theorem attacks_contains_open_ray_witness :
    rayStep ((0 : Int), (1 : Int)) ((0 : Int), (0 : Int)) 3 ∈
      attacks openRayBoard ("w") :=
  @attacks_contains_open_ray openRayBoard ("w") ((0 : Int), (0 : Int))
    ⟨"w", "R"⟩ ((0 : Int), (1 : Int)) 3 (by decide) (by decide)
    (Or.inr (Or.inl (by decide))) (by decide) (by decide) (by decide)
    (Or.inr ⟨⟨"b", "P"⟩, by decide, by decide⟩)

/-! ### Destination properties of the generators (for claim C10) -/

theorem step_ne_start {s1 s2 dr dc : Int} {k : Nat} (hk : 1 ≤ k)
    (h1 : dr = -1 ∨ dr = 0 ∨ dr = 1) (h2 : dc = -1 ∨ dc = 0 ∨ dc = 1)
    (h0 : ¬(dr = 0 ∧ dc = 0)) :
    ((s1 + (k : Int) * dr, s2 + (k : Int) * dc) : Square) ≠ (s1, s2) := by
  intro hc
  rw [Prod.ext_iff] at hc
  have h0' : dr ≠ 0 ∨ dc ≠ 0 := by tauto
  rcases h1 with h | h | h <;> rcases h2 with h' | h' | h' <;>
    rw [h, h'] at hc <;> rcases h0' with h0' | h0' <;> omega

theorem knight_moves_dest {board : Board} {start : Square} {piece : Piece}
    {t : Square} (ht : t ∈ knight_moves board start piece) :
    in_bounds t = true ∧ t ≠ start := by
  obtain ⟨⟨d, hd, rfl⟩, hin, _⟩ := mem_knight_moves.mp ht
  refine ⟨hin, ?_⟩
  fin_cases hd <;>
    (intro hc; rw [Prod.ext_iff] at hc; simp only at hc; omega)

theorem king_moves_dest {board : Board} {start : Square} {piece : Piece}
    {t : Square} (ht : t ∈ king_moves board start piece) :
    in_bounds t = true ∧ t ≠ start := by
  obtain ⟨⟨d, hd, rfl⟩, hin, _⟩ := mem_king_moves.mp ht
  refine ⟨hin, ?_⟩
  fin_cases hd <;>
    (intro hc; rw [Prod.ext_iff] at hc; simp only at hc; omega)

theorem sliding_moves_dest {board : Board} {start : Square} {piece : Piece}
    {deltas : List Square} {t : Square}
    (hunit : ∀ d ∈ deltas, (d.1 = -1 ∨ d.1 = 0 ∨ d.1 = 1) ∧
      (d.2 = -1 ∨ d.2 = 0 ∨ d.2 = 1) ∧ ¬(d.1 = 0 ∧ d.2 = 0))
    (ht : t ∈ sliding_moves board start deltas piece) :
    in_bounds t = true ∧ t ≠ start := by
  obtain ⟨d, hd, hw⟩ := mem_sliding_moves.mp ht
  obtain ⟨k, hk1, _, hteq, _, htin, _⟩ := rayWalk_mem_inv 16 start.1 start.2 hw
  refine ⟨htin, ?_⟩
  obtain ⟨hd1, hd2, hd0⟩ := hunit d hd
  rw [hteq, rayStep_eq]
  exact step_ne_start hk1 hd1 hd2 hd0

theorem pawn_moves_dest {state : GameState} {start : Square} {piece : Piece}
    {t : Square}
    (hep : ∀ u, state.en_passant = some u → in_bounds u = true)
    (ht : t ∈ pawn_moves state start piece) :
    in_bounds t = true ∧ t ≠ start := by
  have hDS : ((if piece.color = "w" then (-1 : Int) else 1) = -1 ∧
        (if piece.color = "w" then (6 : Int) else 1) = 6) ∨
      ((if piece.color = "w" then (-1 : Int) else 1) = 1 ∧
        (if piece.color = "w" then (6 : Int) else 1) = 1) := by
    by_cases hw : piece.color = "w" <;> simp [hw]
  simp only [pawn_moves] at ht
  set D := (if piece.color = "w" then (-1 : Int) else 1) with hDdef
  set S := (if piece.color = "w" then (6 : Int) else 1) with hSdef
  rcases List.mem_append.mp ht with h12 | hep'
  · rcases List.mem_append.mp h12 with hfwd | hcap
    · split_ifs at hfwd with hc1 hc2
      · rcases List.mem_cons.mp hfwd with rfl | h2
        · refine ⟨hc1.1, ?_⟩
          rcases hDS with ⟨hD, _⟩ | ⟨hD, _⟩ <;> rw [hD] <;>
            (intro hc; rw [Prod.ext_iff] at hc; simp only at hc; omega)
        · rcases List.mem_singleton.mp h2 with rfl
          have hb1 := (in_bounds_iff _).mp hc1.1
          simp only at hb1
          constructor
          · rw [in_bounds_iff]
            simp only
            rcases hDS with ⟨hD, hS⟩ | ⟨hD, hS⟩ <;>
              rw [hD] <;> rw [hD] at hb1 <;> rw [hS] at hc2 <;> omega
          · rcases hDS with ⟨hD, _⟩ | ⟨hD, _⟩ <;> rw [hD] <;>
              (intro hc; rw [Prod.ext_iff] at hc; simp only at hc; omega)
      · rcases List.mem_singleton.mp hfwd with rfl
        refine ⟨hc1.1, ?_⟩
        rcases hDS with ⟨hD, _⟩ | ⟨hD, _⟩ <;> rw [hD] <;>
          (intro hc; rw [Prod.ext_iff] at hc; simp only at hc; omega)
      · simp at hfwd
    · obtain ⟨hmm, hcond⟩ := List.mem_filter.mp hcap
      obtain ⟨dc, hdc, rfl⟩ := List.mem_map.mp hmm
      refine ⟨((Bool.and_eq_true _ _).mp hcond).1, ?_⟩
      rcases hDS with ⟨hD, _⟩ | ⟨hD, _⟩ <;> rw [hD] <;>
        (intro hc; rw [Prod.ext_iff] at hc; simp only at hc; omega)
  · cases hepv : state.en_passant with
    | none => simp only [hepv] at hep'; simp at hep'
    | some u =>
      simp only [hepv] at hep'
      by_cases hcnd : u.1 = start.1 + D ∧ (u.2 - start.2).natAbs = 1
      · rw [if_pos hcnd] at hep'
        rcases List.mem_singleton.mp hep' with rfl
        refine ⟨hep t hepv, ?_⟩
        rcases hDS with ⟨hD, _⟩ | ⟨hD, _⟩ <;> rw [hD] at hcnd <;>
          (intro hc; rw [hc] at hcnd; omega)
      · rw [if_neg hcnd] at hep'
        simp at hep'

theorem bishopDeltas_unit : ∀ d ∈ bishopDeltas,
    (d.1 = -1 ∨ d.1 = 0 ∨ d.1 = 1) ∧ (d.2 = -1 ∨ d.2 = 0 ∨ d.2 = 1) ∧
      ¬(d.1 = 0 ∧ d.2 = 0) := by
  decide

theorem rookDeltas_unit : ∀ d ∈ rookDeltas,
    (d.1 = -1 ∨ d.1 = 0 ∨ d.1 = 1) ∧ (d.2 = -1 ∨ d.2 = 0 ∨ d.2 = 1) ∧
      ¬(d.1 = 0 ∧ d.2 = 0) := by
  decide

theorem queenDeltas_unit : ∀ d ∈ queenDeltas,
    (d.1 = -1 ∨ d.1 = 0 ∨ d.1 = 1) ∧ (d.2 = -1 ∨ d.2 = 0 ∨ d.2 = 1) ∧
      ¬(d.1 = 0 ∧ d.2 = 0) := by
  decide

theorem piece_moves_dest {state : GameState} {start : Square} {piece : Piece}
    {t : Square}
    (hep : ∀ u, state.en_passant = some u → in_bounds u = true)
    (ht : t ∈ piece_moves state start piece) :
    in_bounds t = true ∧ t ≠ start := by
  unfold piece_moves at ht
  split_ifs at ht
  · exact pawn_moves_dest hep ht
  · exact knight_moves_dest ht
  · exact sliding_moves_dest bishopDeltas_unit ht
  · exact sliding_moves_dest rookDeltas_unit ht
  · exact sliding_moves_dest queenDeltas_unit ht
  · exact king_moves_dest ht
  · simp at ht

theorem castling_moves_mem_inv {state : GameState} {start : Square}
    {piece : Piece} {castles : List Square} {t : Square}
    (h : castling_moves state start piece = some castles) (ht : t ∈ castles) :
    piece.kind = "K" ∧
    start = ((if piece.color = "w" then (7 : Int) else 0), 4) ∧
    (t = ((if piece.color = "w" then (7 : Int) else 0), 6) ∨
      t = ((if piece.color = "w" then (7 : Int) else 0), 2)) := by
  simp only [castling_moves] at h
  set R := (if piece.color = "w" then (7 : Int) else 0) with hRdef
  set Opp := (if piece.color = "w" then ("b" : String) else "w") with hOdef
  by_cases hK : piece.kind = "K"
  case neg =>
    rw [if_pos hK] at h
    obtain rfl := Option.some.injEq .. ▸ h.symm
    simp at ht
  case pos =>
    rw [if_neg (fun hc => hc hK)] at h
    by_cases hchk : is_in_check state piece.color = true
    · rw [if_pos hchk] at h
      obtain rfl := Option.some.injEq .. ▸ h.symm
      simp at ht
    · rw [if_neg hchk] at h
      by_cases hs : start = (R, 4)
      case neg =>
        rw [if_pos hs] at h
        obtain rfl := Option.some.injEq .. ▸ h.symm
        simp at ht
      case pos =>
        rw [if_neg (fun hc => hc hs)] at h
        cases hlk : state.castling_rights.lookup piece.color with
        | none => simp only [hlk] at h; exact Option.noConfusion h
        | some rights =>
          simp only [hlk] at h
          obtain rfl := Option.some.injEq .. ▸ h.symm
          refine ⟨hK, hs, ?_⟩
          rcases List.mem_append.mp ht with h1 | h1
          · split_ifs at h1
            · exact Or.inl (List.mem_singleton.mp h1)
            · simp at h1
          · split_ifs at h1
            · exact Or.inr (List.mem_singleton.mp h1)
            · simp at h1

/-! ### Claim C10 -/

/-- Claim C10: in a well-formed state (board squares pairwise distinct and in
bounds, en-passant target in bounds when set), every pair (origin,
destination) returned by `legal_moves(state, color)` has its origin occupied
by a piece of that color, its destination in bounds, and destination
different from origin — so feeding the pair back to `apply_move` never
references a missing origin or places a piece out of bounds. -/
theorem legal_moves_well_formed {state : GameState} {color : String}
    {ms : List (Square × Square)} {o d : Square}
    (hnd : (state.board.map Prod.fst).Nodup)
    (hbnd : ∀ e ∈ state.board, in_bounds e.1 = true)
    (hepb : ∀ u, state.en_passant = some u → in_bounds u = true)
    (h : legal_moves state color = some ms) (hmem : (o, d) ∈ ms) :
    (∃ p, boardGet state.board o = some p ∧ p.color = color) ∧
      in_bounds d = true ∧ d ≠ o := by
  obtain ⟨p, castles, hob, hcol, hcas, hd, _⟩ := movesLoop_mem_inv h hmem
  refine ⟨⟨p, boardGet_eq_some_of_mem hnd hob, hcol⟩, ?_⟩
  rcases List.mem_append.mp hd with hpm | hcm
  · exact piece_moves_dest hepb hpm
  · obtain ⟨hK, hs, hor⟩ := castling_moves_mem_inv hcas hcm
    subst hs
    rcases hor with rfl | rfl
    · constructor
      · by_cases hw : p.color = "w" <;> simp [hw, in_bounds]
      · intro hc
        rw [Prod.ext_iff] at hc
        simp only at hc
        omega
    · constructor
      · by_cases hw : p.color = "w" <;> simp [hw, in_bounds]
      · intro hc
        rw [Prod.ext_iff] at hc
        simp only at hc
        omega

set_option maxRecDepth 10000 in
/-- Witness for claim C10 at the initial position and the returned pair
(6,4)→(5,4). -/
theorem legal_moves_well_formed_witness :
    (∃ p, boardGet initial_state.board (6, 4) = some p ∧ p.color = ("w")) ∧
      in_bounds (5, 4) = true ∧ ((5, 4) : Square) ≠ (6, 4) :=
  legal_moves_well_formed (by decide) (by decide)
    (fun u hu => Option.noConfusion hu) initial_legal_moves_eq (by decide)

/-! ### Claim C7: the board after kingside castling -/

theorem boardGet_append (l1 l2 : Board) (q : Square) :
    boardGet (l1 ++ l2) q =
      (match boardGet l1 q with
        | some p => some p
        | none => boardGet l2 q) := by
  induction l1 with
  | nil => rfl
  | cons e rest ih =>
    obtain ⟨sq, r⟩ := e
    by_cases hq : sq = q
    · simp [boardGet, hq]
    · simp only [List.cons_append, boardGet, if_neg hq]
      exact ih

theorem mem_boardSet_inv {b : Board} {k : Square} {v : Piece}
    {e : Square × Piece} (h : e ∈ boardSet b k v) : e ∈ b ∨ e = (k, v) := by
  induction b with
  | nil => simp [boardSet] at h; exact Or.inr h
  | cons f rest ih =>
    obtain ⟨sq, r⟩ := f
    by_cases hq : sq = k
    · rw [boardSet, if_pos hq] at h
      rcases List.mem_cons.mp h with rfl | hm
      · exact Or.inr rfl
      · exact Or.inl (List.mem_cons_of_mem _ hm)
    · rw [boardSet, if_neg hq] at h
      rcases List.mem_cons.mp h with rfl | hm
      · exact Or.inl (List.mem_cons_self _ _)
      · rcases ih hm with hm' | hm'
        · exact Or.inl (List.mem_cons_of_mem _ hm')
        · exact Or.inr hm'

theorem castledBoard_get_4 (b : Board) :
    boardGet (castledBoard b) (7, 4) = none := by
  unfold castledBoard
  rw [boardGet_set_ne _ _ (by decide), boardGet_set_ne _ _ (by decide),
    boardGet_erase_ne _ (by decide), boardGet_erase_self]

theorem castledBoard_get_7 (b : Board) :
    boardGet (castledBoard b) (7, 7) = none := by
  unfold castledBoard
  rw [boardGet_set_ne _ _ (by decide), boardGet_set_ne _ _ (by decide),
    boardGet_erase_self]

theorem castledBoard_get_5 (b : Board) :
    boardGet (castledBoard b) (7, 5) = some ⟨"w", "R"⟩ := by
  unfold castledBoard
  rw [boardGet_set_ne _ _ (by decide), boardGet_set_self]

theorem castledBoard_get_6 (b : Board) :
    boardGet (castledBoard b) (7, 6) = some ⟨"w", "K"⟩ := by
  unfold castledBoard
  rw [boardGet_set_self]

theorem castledBoard_get_other {b : Board} {x : Square}
    (h4 : x ≠ (7, 4)) (h7 : x ≠ (7, 7)) (h5 : x ≠ (7, 5)) (h6 : x ≠ (7, 6)) :
    boardGet (castledBoard b) x = boardGet b x := by
  unfold castledBoard
  rw [boardGet_set_ne _ _ h6, boardGet_set_ne _ _ h5,
    boardGet_erase_ne _ h7, boardGet_erase_ne _ h4]

theorem mem_castledBoard_inv {b : Board} {e : Square × Piece}
    (h : e ∈ castledBoard b) :
    (e ∈ b ∧ e.1 ≠ (7, 4) ∧ e.1 ≠ (7, 7)) ∨
      e = ((7, 5), ⟨"w", "R"⟩) ∨ e = ((7, 6), ⟨"w", "K"⟩) := by
  unfold castledBoard at h
  rcases mem_boardSet_inv h with h' | rfl
  · rcases mem_boardSet_inv h' with h'' | rfl
    · obtain ⟨h1, hne7⟩ := mem_boardErase.mp h''
      obtain ⟨h2, hne4⟩ := mem_boardErase.mp h1
      exact Or.inl ⟨h2, hne4, hne7⟩
    · exact Or.inr (Or.inl rfl)
  · exact Or.inr (Or.inr rfl)

/-- Geometric core of claim C7: a sliding attack on the castling destination
(7,6) in the castled board was already an attack on (7,6) on the original
board. Vacating (7,4) and (7,7) can only extend rays along row 7, and those
are blocked again by the rook now on (7,5); the rook's old square (7,7) can
only feed a ray to (7,6) from outside the board. -/
theorem sliding_attack_transfer {state : GameState} {sq : Square} {q : Piece}
    {deltas : List Square}
    (hbnd : ∀ e ∈ state.board, in_bounds e.1 = true)
    (he6 : boardGet state.board (7, 6) = none)
    (hqb : (sq, q) ∈ state.board)
    (hunit : ∀ d ∈ deltas, (d.1 = -1 ∨ d.1 = 0 ∨ d.1 = 1) ∧
      (d.2 = -1 ∨ d.2 = 0 ∨ d.2 = 1) ∧ ¬(d.1 = 0 ∧ d.2 = 0))
    (hatt : ((7, 6) : Square) ∈
      sliding_moves (castledBoard state.board) sq deltas q) :
    ((7, 6) : Square) ∈ sliding_moves state.board sq deltas q := by
  obtain ⟨delta, hdel, hwalk⟩ := mem_sliding_moves.mp hatt
  obtain ⟨k, hk1, hk16, hteq, hmidB, htin, _⟩ :=
    rayWalk_mem_inv 16 sq.1 sq.2 hwalk
  obtain ⟨hd1, hd2, hd0⟩ := hunit delta hdel
  have hd0' : delta.1 ≠ 0 ∨ delta.2 ≠ 0 := by tauto
  by_cases hmid4 : ∀ j : Nat, j < k → 1 ≤ j →
      rayStep (delta.1, delta.2) (sq.1, sq.2) j ≠ ((7 : Int), (4 : Int)) ∧
      rayStep (delta.1, delta.2) (sq.1, sq.2) j ≠ ((7 : Int), (7 : Int))
  case pos =>
    apply mem_sliding_moves.mpr
    refine ⟨delta, hdel, ?_⟩
    rw [hteq]
    apply rayWalk_mem_intro k 16 sq.1 sq.2 hk1 hk16
    · intro j hj hj1
      obtain ⟨hin_j, hget_j⟩ := hmidB j hj hj1
      obtain ⟨hne4, hne7⟩ := hmid4 j hj hj1
      have hne5 : rayStep (delta.1, delta.2) (sq.1, sq.2) j ≠
          ((7 : Int), (5 : Int)) := by
        intro hc
        rw [hc, castledBoard_get_5] at hget_j
        exact Option.noConfusion hget_j
      have hne6 : rayStep (delta.1, delta.2) (sq.1, sq.2) j ≠
          ((7 : Int), (6 : Int)) := by
        intro hc
        rw [hc, castledBoard_get_6] at hget_j
        exact Option.noConfusion hget_j
      refine ⟨hin_j, ?_⟩
      rw [← castledBoard_get_other hne4 hne7 hne5 hne6]
      exact hget_j
    · rw [← hteq]
      exact htin
    · rw [← hteq]
      exact Or.inl he6
  case neg =>
    exfalso
    push_neg at hmid4
    obtain ⟨j, hj, hj1, hor⟩ := hmid4
    have hk_eq := hteq
    rw [rayStep_eq, Prod.ext_iff] at hk_eq
    simp only at hk_eq
    by_cases h4 : rayStep (delta.1, delta.2) (sq.1, sq.2) j = ((7 : Int), (4 : Int))
    · rw [rayStep_eq, Prod.ext_iff] at h4
      simp only at h4
      have hstep5 : sq.1 + ((j + 1 : Nat) : Int) * delta.1 = 7 ∧
          sq.2 + ((j + 1 : Nat) : Int) * delta.2 = 5 ∧ j + 1 < k := by
        rcases hd1 with h | h | h <;> rcases hd2 with h' | h' | h' <;>
          rw [h, h'] at h4 hk_eq ⊢ <;> rcases hd0' with h0 | h0 <;> omega
      have h5mem := hmidB (j + 1) hstep5.2.2 (by omega)
      have h5eq : rayStep (delta.1, delta.2) (sq.1, sq.2) (j + 1) =
          ((7 : Int), (5 : Int)) := by
        rw [rayStep_eq, Prod.ext_iff]
        exact ⟨hstep5.1, hstep5.2.1⟩
      have hcontr := h5mem.2
      rw [h5eq, castledBoard_get_5] at hcontr
      exact Option.noConfusion hcontr
    · have h7 := hor h4
      rw [rayStep_eq, Prod.ext_iff] at h7
      simp only at h7
      have hbsq : 0 ≤ sq.1 ∧ sq.1 < 8 ∧ 0 ≤ sq.2 ∧ sq.2 < 8 :=
        (in_bounds_iff sq).mp (hbnd (sq, q) hqb)
      rcases hd1 with h | h | h <;> rcases hd2 with h' | h' | h' <;>
        rw [h, h'] at h7 hk_eq <;> rcases hd0' with h0 | h0 <;> omega

/-- After White's kingside castling, the king's destination (7,6) is not
attacked by Black, provided it was not attacked before and was empty. -/
theorem castled_square_not_attacked {state : GameState}
    (hbnd : ∀ e ∈ state.board, in_bounds e.1 = true)
    (he6 : boardGet state.board (7, 6) = none)
    (ha6 : ((7, 6) : Square) ∉ attacks state.board ("b")) :
    ((7, 6) : Square) ∉ attacks (castledBoard state.board) ("b") := by
  intro hatt
  obtain ⟨sq, q, hqmem, hqcol, hqatt⟩ := attacks_mem_inv hatt
  rcases mem_castledBoard_inv hqmem with ⟨hqb, _, _⟩ | heq | heq
  rotate_left
  · obtain ⟨h1, h2⟩ := Prod.mk.injEq sq q ((7 : Int), (5 : Int)) ⟨"w", "R"⟩ ▸ heq
    subst h2
    exact absurd hqcol (by decide)
  · obtain ⟨h1, h2⟩ := Prod.mk.injEq sq q ((7 : Int), (6 : Int)) ⟨"w", "K"⟩ ▸ heq
    subst h2
    exact absurd hqcol (by decide)
  by_cases hP : q.kind = "P"
  · have h1 : pieceAttacks (castledBoard state.board) ("b") sq q =
        pawnAttackSquares ("b") sq := by simp [pieceAttacks, hP]
    rw [h1] at hqatt
    refine ha6 (attacks_mem_intro hqb hqcol ?_)
    have h2 : pieceAttacks state.board ("b") sq q =
        pawnAttackSquares ("b") sq := by simp [pieceAttacks, hP]
    rw [h2]
    exact hqatt
  by_cases hN : q.kind = "N"
  · have h1 : pieceAttacks (castledBoard state.board) ("b") sq q =
        knight_moves (castledBoard state.board) sq q := by
      simp [pieceAttacks, hP, hN]
    rw [h1] at hqatt
    obtain ⟨hd, hin, _⟩ := mem_knight_moves.mp hqatt
    refine ha6 (attacks_mem_intro hqb hqcol ?_)
    have h2 : pieceAttacks state.board ("b") sq q =
        knight_moves state.board sq q := by simp [pieceAttacks, hP, hN]
    rw [h2]
    exact mem_knight_moves.mpr ⟨hd, hin,
      (emptyOrOpponent_iff _ _ _).mpr (Or.inl he6)⟩
  by_cases hBk : q.kind = "B"
  · have h1 : pieceAttacks (castledBoard state.board) ("b") sq q =
        sliding_moves (castledBoard state.board) sq bishopDeltas q := by
      simp [pieceAttacks, hP, hN, hBk]
    rw [h1] at hqatt
    refine ha6 (attacks_mem_intro hqb hqcol ?_)
    have h2 : pieceAttacks state.board ("b") sq q =
        sliding_moves state.board sq bishopDeltas q := by
      simp [pieceAttacks, hP, hN, hBk]
    rw [h2]
    exact sliding_attack_transfer hbnd he6 hqb bishopDeltas_unit hqatt
  by_cases hRk : q.kind = "R"
  · have h1 : pieceAttacks (castledBoard state.board) ("b") sq q =
        sliding_moves (castledBoard state.board) sq rookDeltas q := by
      simp [pieceAttacks, hP, hN, hBk, hRk]
    rw [h1] at hqatt
    refine ha6 (attacks_mem_intro hqb hqcol ?_)
    have h2 : pieceAttacks state.board ("b") sq q =
        sliding_moves state.board sq rookDeltas q := by
      simp [pieceAttacks, hP, hN, hBk, hRk]
    rw [h2]
    exact sliding_attack_transfer hbnd he6 hqb rookDeltas_unit hqatt
  by_cases hQk : q.kind = "Q"
  · have h1 : pieceAttacks (castledBoard state.board) ("b") sq q =
        sliding_moves (castledBoard state.board) sq queenDeltas q := by
      simp [pieceAttacks, hP, hN, hBk, hRk, hQk]
    rw [h1] at hqatt
    refine ha6 (attacks_mem_intro hqb hqcol ?_)
    have h2 : pieceAttacks state.board ("b") sq q =
        sliding_moves state.board sq queenDeltas q := by
      simp [pieceAttacks, hP, hN, hBk, hRk, hQk]
    rw [h2]
    exact sliding_attack_transfer hbnd he6 hqb queenDeltas_unit hqatt
  by_cases hKk : q.kind = "K"
  · have h1 : pieceAttacks (castledBoard state.board) ("b") sq q =
        king_moves (castledBoard state.board) sq q := by
      simp [pieceAttacks, hP, hN, hBk, hRk, hQk, hKk]
    rw [h1] at hqatt
    obtain ⟨hd, hin, _⟩ := mem_king_moves.mp hqatt
    refine ha6 (attacks_mem_intro hqb hqcol ?_)
    have h2 : pieceAttacks state.board ("b") sq q =
        king_moves state.board sq q := by
      simp [pieceAttacks, hP, hN, hBk, hRk, hQk, hKk]
    rw [h2]
    exact mem_king_moves.mpr ⟨hd, hin,
      (emptyOrOpponent_iff _ _ _).mpr (Or.inl he6)⟩
  · have h1 : pieceAttacks (castledBoard state.board) ("b") sq q = [] := by
      simp [pieceAttacks, hP, hN, hBk, hRk, hQk, hKk]
    rw [h1] at hqatt
    simp at hqatt

theorem castledBoard_find_king {state : GameState}
    (huniq : ∀ e ∈ state.board, e.2.color = "w" → e.2.kind = "K" →
      e.1 = ((7 : Int), (4 : Int)))
    (he5 : boardGet state.board (7, 5) = none)
    (he6 : boardGet state.board (7, 6) = none) :
    find_king (castledBoard state.board) ("w") = some (7, 6) := by
  have hX5 : boardGet (boardErase (boardErase state.board (7, 4)) (7, 7))
      (7, 5) = none := by
    rw [boardGet_erase_ne _ (by decide), boardGet_erase_ne _ (by decide)]
    exact he5
  have h1 : boardSet (boardErase (boardErase state.board (7, 4)) (7, 7))
      (7, 5) ⟨"w", "R"⟩ =
      boardErase (boardErase state.board (7, 4)) (7, 7) ++
        [((7, 5), ⟨"w", "R"⟩)] :=
    boardSet_eq_append _ hX5
  have hX6 : boardGet (boardErase (boardErase state.board (7, 4)) (7, 7) ++
      [((7, 5), ⟨"w", "R"⟩)]) (7, 6) = none := by
    rw [boardGet_append]
    have hi : boardGet (boardErase (boardErase state.board (7, 4)) (7, 7))
        (7, 6) = none := by
      rw [boardGet_erase_ne _ (by decide), boardGet_erase_ne _ (by decide)]
      exact he6
    rw [hi]
    rfl
  have h2 : castledBoard state.board =
      (boardErase (boardErase state.board (7, 4)) (7, 7) ++
        [((7, 5), ⟨"w", "R"⟩)]) ++ [((7, 6), ⟨"w", "K"⟩)] := by
    unfold castledBoard
    rw [h1]
    exact boardSet_eq_append _ hX6
  rw [h2]
  have hfkX : find_king (boardErase (boardErase state.board (7, 4)) (7, 7))
      ("w") = none := by
    rw [find_king_eq_none_iff]
    intro sq p hmem hkp
    obtain ⟨hm1, hne7⟩ := mem_boardErase.mp hmem
    obtain ⟨hm2, hne4⟩ := mem_boardErase.mp hm1
    exact hne4 (huniq (sq, p) hm2 hkp.1 hkp.2)
  have hfk1 : find_king (boardErase (boardErase state.board (7, 4)) (7, 7) ++
      [((7, 5), ⟨"w", "R"⟩)]) ("w") = none := by
    rw [find_king_append_of_none hfkX]
    rfl
  rw [find_king_append_of_none hfk1]
  rfl

theorem castling_moves_kingside {state : GameState}
    (hchk : is_in_check state ("w") = false)
    (hright : state.castling_rights.w.K = true)
    (he5 : boardGet state.board (7, 5) = none)
    (he6 : boardGet state.board (7, 6) = none)
    (ha5 : ((7, 5) : Square) ∉ attacks state.board ("b"))
    (ha6 : ((7, 6) : Square) ∉ attacks state.board ("b")) :
    ∃ cas, castling_moves state (7, 4) ⟨"w", "K"⟩ = some cas ∧
      ((7, 6) : Square) ∈ cas := by
  have key : castling_moves state (7, 4) ⟨"w", "K"⟩ =
      (if is_in_check state ("w") = true then some []
       else some
        ((if state.castling_rights.w.K = true ∧
            boardGet state.board (7, 5) = none ∧
            boardGet state.board (7, 6) = none ∧
            ((7, 5) : Square) ∉ attacks state.board ("b") ∧
            ((7, 6) : Square) ∉ attacks state.board ("b")
          then [((7 : Int), (6 : Int))] else []) ++
         (if state.castling_rights.w.Q = true ∧
            boardGet state.board (7, 3) = none ∧
            boardGet state.board (7, 2) = none ∧
            boardGet state.board (7, 1) = none ∧
            ((7, 3) : Square) ∉ attacks state.board ("b") ∧
            ((7, 2) : Square) ∉ attacks state.board ("b")
          then [((7 : Int), (2 : Int))] else []))) := rfl
  rw [key, if_neg (fun hc => Bool.false_ne_true (hchk ▸ hc))]
  refine ⟨_, rfl, List.mem_append_left _ ?_⟩
  rw [if_pos ⟨hright, he5, he6, ha5, ha6⟩]
  exact List.mem_singleton.mpr rfl

/-- In the castling position every candidate move of every white piece can be
applied (no `KeyError`), so `legal_moves` returns a list. -/
theorem legal_moves_isSome_castle {state : GameState}
    (hnd : (state.board.map Prod.fst).Nodup)
    (huniq : ∀ e ∈ state.board, e.2.color = "w" → e.2.kind = "K" →
      e.1 = ((7 : Int), (4 : Int)))
    (hrk : boardGet state.board (7, 7) = some ⟨"w", "R"⟩)
    (hrq : boardGet state.board (7, 0) = some ⟨"w", "R"⟩)
    (hchk : is_in_check state ("w") = false)
    (hright : state.castling_rights.w.K = true)
    (he5 : boardGet state.board (7, 5) = none)
    (he6 : boardGet state.board (7, 6) = none)
    (ha5 : ((7, 5) : Square) ∉ attacks state.board ("b"))
    (ha6 : ((7, 6) : Square) ∉ attacks state.board ("b")) :
    (legal_moves state ("w")).isSome = true := by
  apply movesLoop_isSome
  intro sq p hmem hcol
  by_cases hK : p.kind = "K"
  · have hp : p = ⟨"w", "K"⟩ := by
      obtain ⟨c, k⟩ := p
      simp only at hcol hK
      rw [hcol, hK]
    subst hp
    have hsqe : sq = ((7 : Int), (4 : Int)) := huniq (sq, ⟨"w", "K"⟩) hmem rfl rfl
    subst hsqe
    obtain ⟨cas, hcaseq, _⟩ :=
      castling_moves_kingside hchk hright he5 he6 ha5 ha6
    refine ⟨cas, hcaseq, ?_⟩
    intro t ht
    apply apply_move_succeeds_on_occupied (boardGet_eq_some_of_mem hnd hmem)
    intro _
    refine ⟨Or.inl rfl, ?_⟩
    intro habs
    rcases List.mem_append.mp ht with hpm | hcm
    · have hkm : t ∈ king_moves state.board (7, 4) ⟨"w", "K"⟩ := by
        simpa [piece_moves] using hpm
      obtain ⟨⟨dd, hdd, rfl⟩, _, _⟩ := mem_king_moves.mp hkm
      exfalso
      fin_cases hdd <;> exact absurd habs (by decide)
    · obtain ⟨_, _, hor⟩ := castling_moves_mem_inv hcaseq hcm
      rcases hor with rfl | rfl
      · show (boardGet (boardErase state.board (7, 4)) (7, 7)).isSome = true
        rw [boardGet_erase_ne _ (by decide), hrk]
        rfl
      · show (boardGet (boardErase state.board (7, 4)) (7, 0)).isSome = true
        rw [boardGet_erase_ne _ (by decide), hrq]
        rfl
  · refine ⟨[], ?_, ?_⟩
    · simp only [castling_moves]
      rw [if_pos hK]
    · intro t ht
      apply apply_move_succeeds_on_occupied (boardGet_eq_some_of_mem hnd hmem)
      intro hkind
      exact absurd hkind hK

/-- Claim C7 (amended): in every well-formed state (distinct in-bounds board
squares, a unique white king) with the white king on (7,4), both white rooks
on their home squares (7,0) and (7,7), the kingside right still true, squares
(7,5) and (7,6) empty and not attacked by Black, and — the added condition —
White not currently in check, `legal_moves(state, White)` contains
(7,4)→(7,6), and applying that move relocates the rook from (7,7) to (7,5)
and sets both of White's castling rights to false. -/
theorem castling_available_and_effect {state : GameState}
    (hnd : (state.board.map Prod.fst).Nodup)
    (hbnd : ∀ e ∈ state.board, in_bounds e.1 = true)
    (hking : boardGet state.board (7, 4) = some ⟨"w", "K"⟩)
    (huniq : ∀ e ∈ state.board, e.2.color = "w" → e.2.kind = "K" →
      e.1 = ((7 : Int), (4 : Int)))
    (hrk : boardGet state.board (7, 7) = some ⟨"w", "R"⟩)
    (hrq : boardGet state.board (7, 0) = some ⟨"w", "R"⟩)
    (hright : state.castling_rights.w.K = true)
    (he5 : boardGet state.board (7, 5) = none)
    (he6 : boardGet state.board (7, 6) = none)
    (ha5 : ((7, 5) : Square) ∉ attacks state.board ("b"))
    (ha6 : ((7, 6) : Square) ∉ attacks state.board ("b"))
    (hchk : is_in_check state ("w") = false) :
    (∃ ms, legal_moves state ("w") = some ms ∧
      (((7, 4), (7, 6)) : Square × Square) ∈ ms) ∧
    (∃ s', apply_move state (7, 4) (7, 6) none = some s' ∧
      boardGet s'.board (7, 5) = some ⟨"w", "R"⟩ ∧
      boardGet s'.board (7, 7) = none ∧
      s'.castling_rights.w.K = false ∧ s'.castling_rights.w.Q = false) := by
  have hrook : boardGet (boardErase state.board (7, 4))
      ((7 : Int), (7 : Int)) = some ⟨"w", "R"⟩ := by
    rw [boardGet_erase_ne _ (by decide)]
    exact hrk
  have hcast : castleBoard ⟨"w", "K"⟩ (7, 4) (7, 6)
      (epCaptureBoard state ⟨"w", "K"⟩ (boardErase state.board (7, 4))
        (7, 6)) =
      some (boardSet (boardErase (boardErase state.board (7, 4)) (7, 7))
        (7, 5) ⟨"w", "R"⟩) := by
    rw [epCaptureBoard_of_not_pawn (by decide)]
    exact castleBoard_of_rook rfl (by decide) hrook
  have hkr : kingRights ⟨"w", "K"⟩ state.castling_rights =
      some (CastlingRights.mk ⟨false, false⟩ state.castling_rights.b) := rfl
  have hcap6 : boardGet (boardErase state.board (7, 4))
      ((7 : Int), (6 : Int)) = none := by
    rw [boardGet_erase_ne _ (by decide)]
    exact he6
  have happly : apply_move state (7, 4) (7, 6) none =
      some ⟨castledBoard state.board,
            if state.current = "w" then "b" else "w",
            CastlingRights.mk ⟨false, false⟩ state.castling_rights.b,
            none⟩ := by
    rw [apply_move_eq_of hking hcast hkr, hcap6]
    rfl
  have hchk2 : is_in_check
      ⟨castledBoard state.board, if state.current = "w" then "b" else "w",
        CastlingRights.mk ⟨false, false⟩ state.castling_rights.b, none⟩
      ("w") = false := by
    have hfk := castledBoard_find_king huniq he5 he6
    have hna := castled_square_not_attacked hbnd he6 ha6
    simp only [is_in_check, hfk]
    exact decide_eq_false hna
  have hsome := legal_moves_isSome_castle hnd huniq hrk hrq hchk hright
    he5 he6 ha5 ha6
  obtain ⟨ms, hms⟩ := Option.isSome_iff_exists.mp hsome
  obtain ⟨cas, hcaseq, hmem6⟩ :=
    castling_moves_kingside hchk hright he5 he6 ha5 ha6
  refine ⟨⟨ms, hms, ?_⟩, ⟨_, happly, ?_, ?_, rfl, rfl⟩⟩
  · exact movesLoop_mem_intro hms (mem_of_boardGet hking) rfl hcaseq
      (List.mem_append_right _ hmem6) happly hchk2
  · exact castledBoard_get_5 _
  · exact castledBoard_get_7 _

/-- Claim C7 counterexample: in `checkedCastleState` every hypothesis named
by the claim holds (white king on (7,4), both rooks home, kingside right
true, (7,5) and (7,6) empty and unattacked by Black) — but White is in check
from the rook on (5,4), `castling_moves` bails out, and (7,4)→(7,6) is *not*
among White's legal moves. -/
theorem castling_in_check_cex :
    boardGet checkedCastleState.board (7, 4) = some ⟨"w", "K"⟩ ∧
    boardGet checkedCastleState.board (7, 0) = some ⟨"w", "R"⟩ ∧
    boardGet checkedCastleState.board (7, 7) = some ⟨"w", "R"⟩ ∧
    checkedCastleState.castling_rights.w.K = true ∧
    boardGet checkedCastleState.board (7, 5) = none ∧
    boardGet checkedCastleState.board (7, 6) = none ∧
    ((7, 5) : Square) ∉ attacks checkedCastleState.board ("b") ∧
    ((7, 6) : Square) ∉ attacks checkedCastleState.board ("b") ∧
    is_in_check checkedCastleState ("w") = true ∧
    (legal_moves checkedCastleState ("w")).isSome = true ∧
    (((7, 4), (7, 6)) : Square × Square) ∉
      (legal_moves checkedCastleState ("w")).getD [] := by
  decide

/-- Witness for the amended claim C7 in `castleReadyState`. -/
theorem castling_available_and_effect_witness :
    (∃ ms, legal_moves castleReadyState ("w") = some ms ∧
      (((7, 4), (7, 6)) : Square × Square) ∈ ms) ∧
    (∃ s', apply_move castleReadyState (7, 4) (7, 6) none = some s' ∧
      boardGet s'.board (7, 5) = some ⟨"w", "R"⟩ ∧
      boardGet s'.board (7, 7) = none ∧
      s'.castling_rights.w.K = false ∧ s'.castling_rights.w.Q = false) :=
  castling_available_and_effect (by decide) (by decide) (by decide)
    (by decide) (by decide) (by decide) (by decide) (by decide) (by decide)
    (by decide) (by decide) (by decide)
